import Mathlib

/-!
Verification of the LIPS-to-C compiler (src/index.js): a shallow embedding of
its tokenizer, parser, traverser, transformer and code generator, followed by
theorems about the embedded pipeline.

JavaScript's partial behaviours are made explicit in the embedding:
out-of-bounds array/string reads yield `none` (JS `undefined`), thrown
exceptions become `Except.error`, and loops that may diverge take a fuel
argument whose exhaustion is reported as `none` — so `∀ fuel, run fuel = none`
states that the corresponding JS loop never finishes.
-/

/-- The `type` tag of a token (src/index.js emits 'paren', 'number', 'string',
'name'). -/
inductive TokType where
  | paren
  | number
  | string
  | name
deriving DecidableEq, Repr

/-- A token object `{ type, value }` as pushed by `tokenizer`. -/
structure Token where
  type : TokType
  value : String
deriving DecidableEq, Repr

/-- JavaScript exceptions relevant to the pipeline.
`syntaxError` is the tokenizer's explicit `throw new SyntaxError(msg)`;
`typeError` is an explicit `throw new TypeError(msg)` (traverser / code
generator); `undefinedRead f` is the runtime TypeError raised when property
`f` is read from `undefined` or `null`; `parseError` is the error class the
spec prescribes for the parser — the code never constructs one, the
constructor exists so that spec-level claims about it can be stated. -/
inductive JsError where
  | syntaxError (msg : String)
  | typeError (msg : String)
  | undefinedRead (field : String)
  | parseError (msg : String)
deriving DecidableEq, Repr

/-- The JS regex test `/\s/.test(c)` for a single character: the ECMAScript
white-space and line-terminator set. -/
def wsTest (c : Char) : Bool :=
  c == ' ' || c == '\t' || c == '\n' || c == '\x0b' || c == '\x0c' || c == '\r' ||
  c == '\u00A0' || c == '\u1680' || ('\u2000' ≤ c && c ≤ '\u200A') ||
  c == '\u2028' || c == '\u2029' || c == '\u202F' || c == '\u205F' ||
  c == '\u3000' || c == '\uFEFF'

/-- The JS regex test `/[0-9]/.test(c)` for a single character. -/
def numTest (c : Char) : Bool :=
  '0' ≤ c && c ≤ '9'

/-- The JS regex test `/[a-z]/i.test(c)` for a single character. -/
def letterTest (c : Char) : Bool :=
  ('a' ≤ c && c ≤ 'z') || ('A' ≤ c && c ≤ 'Z')

/-- JS string concatenation `value + char` where `char` may be `undefined`
(an out-of-bounds read): `undefined` coerces to the text "undefined". -/
def jsCharStr : Option Char → String
  | some c => String.mk [c]
  | none => "undefined"

mutual

/-- The main scanning loop of `tokenizer` (src/index.js lines 39-104), one
fuel unit per iteration; `none` means the loop did not finish in `fuel`
steps.  Reading `input[current]` past the end fails the `while` guard, so
the `none` branch returns the tokens accumulated so far. -/
def tokLoop : Nat → List Char → Nat → List Token → Option (Except JsError (List Token))
  | 0, _, _, _ => none
  | fuel+1, input, current, tokens =>
    match input[current]? with
    | none => some (.ok tokens)
    | some char =>
      if char == '(' || char == ')' then
        tokLoop fuel input (current+1) (tokens ++ [⟨.paren, String.mk [char]⟩])
      else if wsTest char then
        tokLoop fuel input (current+1) tokens
      else if numTest char then
        tokLoop fuel input (current+1) (tokens ++ [⟨.number, String.mk [char]⟩])
      else if char == '"' then
        strLoop fuel input (current+1) "" tokens
      else if letterTest char then
        nameLoop fuel input current "" tokens
      else
        some (.error (.syntaxError ("I dont know what this character is: " ++ String.mk [char])))

/-- The string-literal loop of `tokenizer` (lines 69-83): after the opening
quote, accumulate characters until a closing quote.  Past the end of input,
`char` is `undefined`, which is `!== '"'`, so JS keeps looping, appending
the coerced text "undefined" each time. -/
def strLoop : Nat → List Char → Nat → String → List Token → Option (Except JsError (List Token))
  | 0, _, _, _, _ => none
  | fuel+1, input, current, value, tokens =>
    match input[current]? with
    | some c =>
      if c == '"' then
        tokLoop fuel input (current+1) (tokens ++ [⟨.string, value⟩])
      else
        strLoop fuel input (current+1) (value ++ String.mk [c]) tokens
    | none => strLoop fuel input (current+1) (value ++ "undefined") tokens

/-- The name-accumulation loop of `tokenizer` (lines 85-101).  Past the end
of input, `LETTER.test(undefined)` tests the coerced string "undefined",
which does contain letters, so JS keeps looping. -/
def nameLoop : Nat → List Char → Nat → String → List Token → Option (Except JsError (List Token))
  | 0, _, _, _, _ => none
  | fuel+1, input, current, value, tokens =>
    match input[current]? with
    | some c =>
      if letterTest c then
        nameLoop fuel input (current+1) (value ++ String.mk [c]) tokens
      else
        tokLoop fuel input current (tokens ++ [⟨.name, value⟩])
    | none => nameLoop fuel input (current+1) (value ++ "undefined") tokens

end

/-- `tokenizer(input)` from src/index.js (lines 35-106), with fuel. -/
def tokenizer (fuel : Nat) (input : String) : Option (Except JsError (List Token)) :=
  tokLoop fuel input.data 0 []

example : tokenizer 30 "(add 2 (subtract 4 2))" =
    some (.ok [⟨.paren, "("⟩, ⟨.name, "add"⟩, ⟨.number, "2"⟩, ⟨.paren, "("⟩,
      ⟨.name, "subtract"⟩, ⟨.number, "4"⟩, ⟨.number, "2"⟩, ⟨.paren, ")"⟩,
      ⟨.paren, ")"⟩]) := by
  rfl

/-- Source-language AST nodes as produced by `parser` (src/index.js lines
112-164): `Program { body }`, `CallExpression { name, params }`,
`NumberLiteral { value }`, `StringLiteral { value }`. -/
inductive PNode where
  | program (body : List PNode)
  | call (name : String) (params : List PNode)
  | num (value : String)
  | str (value : String)

mutual

/-- `walk()` inside `parser` (lines 112-151), with fuel.  The result carries
the returned node — possibly `undefined` (`none`), since the `if` chain has
no `else` — together with the updated `current` cursor.  Reading `.type` or
`.value` of a missing token is the runtime `undefinedRead` TypeError. -/
def walk : Nat → List Token → Nat → Option (Except JsError (Option PNode × Nat))
  | 0, _, _ => none
  | fuel+1, tokens, current =>
    match tokens[current]? with
    | none => some (.error (.undefinedRead "type"))
    | some token =>
      if token.type == .number then
        some (.ok (some (.num token.value), current+1))
      else if token.type == .string then
        some (.ok (some (.str token.value), current+1))
      else if token.type == .paren && token.value == "(" then
        match tokens[current+1]? with
        | none => some (.error (.undefinedRead "value"))
        | some nameTok =>
          walkParams fuel tokens (current+2) nameTok.value []
      else
        some (.ok (none, current))

/-- The `while` loop collecting `params` in `walk`'s CallExpression branch
(lines 142-145): loop until the current token is a `)` paren, pushing
`walk()` results.  When `walk()` returns `undefined` it has not advanced
`current`, so the identical iteration repeats forever; the embedding then
recurses on the same cursor (dropping the pushed `undefined` from `params`,
observationally equal because such runs exhaust every fuel). -/
def walkParams : Nat → List Token → Nat → String → List PNode →
    Option (Except JsError (Option PNode × Nat))
  | 0, _, _, _, _ => none
  | fuel+1, tokens, current, name, params =>
    match tokens[current]? with
    | none => some (.error (.undefinedRead "type"))
    | some token =>
      if token.type == .paren && token.value == ")" then
        some (.ok (some (.call name params), current+1))
      else
        match walk fuel tokens current with
        | none => none
        | some (.error e) => some (.error e)
        | some (.ok (some node, cur)) => walkParams fuel tokens cur name (params ++ [node])
        | some (.ok (none, cur)) => walkParams fuel tokens cur name params

end

/-- The top-level loop of `parser` (lines 159-162): call `walk()` until the
cursor passes the end of `tokens`, collecting results into `body`.  A
`walk()` returning `undefined` pushes `undefined` without advancing, so the
loop repeats identically forever; as above the embedding recurses on the
same cursor and drops the `undefined`. -/
def parseLoop : Nat → List Token → Nat → List PNode → Option (Except JsError (List PNode))
  | 0, _, _, _ => none
  | fuel+1, tokens, current, body =>
    if current < tokens.length then
      match walk fuel tokens current with
      | none => none
      | some (.error e) => some (.error e)
      | some (.ok (some node, cur)) => parseLoop fuel tokens cur (body ++ [node])
      | some (.ok (none, cur)) => parseLoop fuel tokens cur body
    else
      some (.ok body)

/-- `parser(tokens)` from src/index.js (lines 109-165), with fuel. -/
def parser (fuel : Nat) (tokens : List Token) : Option (Except JsError PNode) :=
  match parseLoop fuel tokens 0 [] with
  | none => none
  | some (.error e) => some (.error e)
  | some (.ok body) => some (.ok (.program body))

example : parser 30 [⟨.paren, "("⟩, ⟨.name, "add"⟩, ⟨.number, "2"⟩, ⟨.paren, "("⟩,
      ⟨.name, "subtract"⟩, ⟨.number, "4"⟩, ⟨.number, "2"⟩, ⟨.paren, ")"⟩,
      ⟨.paren, ")"⟩] =
    some (.ok (.program [.call "add" [.num "2", .call "subtract" [.num "4", .num "2"]]])) := by
  rfl

mutual

/-- Structural equality of source nodes (used to key the `_context`
association below). -/
def PNode.beq : PNode → PNode → Bool
  | .program b1, .program b2 => PNode.beqList b1 b2
  | .call n1 p1, .call n2 p2 => n1 == n2 && PNode.beqList p1 p2
  | .num v1, .num v2 => v1 == v2
  | .str v1, .str v2 => v1 == v2
  | _, _ => false

def PNode.beqList : List PNode → List PNode → Bool
  | [], [] => true
  | a :: as, b :: bs => PNode.beq a b && PNode.beqList as bs
  | _, _ => false

end

/-- The optional `enter`/`exit` callbacks registered for one node type in a
`traverser` visitor; each receives `(node, parent)` — `parent` may be JS
`null` — and threads the traversal state, possibly throwing. -/
structure VisitorMethods (σ : Type u) where
  enter : Option (PNode → Option PNode → σ → Except JsError σ)
  exit : Option (PNode → Option PNode → σ → Except JsError σ)

/-- A `traverser` visitor: an optional `VisitorMethods` per node type
(the JS object keyed by type name). -/
structure Visitor (σ : Type u) where
  program : Option (VisitorMethods σ)
  callExpression : Option (VisitorMethods σ)
  numberLiteral : Option (VisitorMethods σ)
  stringLiteral : Option (VisitorMethods σ)

/-- `visitor[node.type]` (line 177). -/
def Visitor.lookup (v : Visitor σ) : PNode → Option (VisitorMethods σ)
  | .program _ => v.program
  | .call _ _ => v.callExpression
  | .num _ => v.numberLiteral
  | .str _ => v.stringLiteral

/-- `if (methods && methods.enter) methods.enter(node, parent)` (lines
179-181). -/
def runEnter (v : Visitor σ) (node : PNode) (parent : Option PNode) (s : σ) :
    Except JsError σ :=
  match v.lookup node with
  | some m =>
    match m.enter with
    | some f => f node parent s
    | none => .ok s
  | none => .ok s

/-- `if (methods && methods.exit) methods.exit(node, parent)` (lines
197-199). -/
def runExit (v : Visitor σ) (node : PNode) (parent : Option PNode) (s : σ) :
    Except JsError σ :=
  match v.lookup node with
  | some m =>
    match m.exit with
    | some f => f node parent s
    | none => .ok s
  | none => .ok s

mutual

/-- `traverseNode(node, parent)` of `traverser` (lines 176-200): run `enter`,
recurse into the children dictated by the node type (`Program → body`,
`CallExpression → params`, literals → none), then run `exit`.  The JS
`default: throw new TypeError(node.type)` branch is unreachable here: the
closed `PNode` type has exactly the four handled shapes. -/
def traverseNode (v : Visitor σ) : PNode → Option PNode → σ → Except JsError σ
  | .program body, parent, s =>
    match runEnter v (.program body) parent s with
    | .error e => .error e
    | .ok s1 =>
      match traverseArray v body (.program body) s1 with
      | .error e => .error e
      | .ok s2 => runExit v (.program body) parent s2
  | .call name params, parent, s =>
    match runEnter v (.call name params) parent s with
    | .error e => .error e
    | .ok s1 =>
      match traverseArray v params (.call name params) s1 with
      | .error e => .error e
      | .ok s2 => runExit v (.call name params) parent s2
  | .num val, parent, s =>
    match runEnter v (.num val) parent s with
    | .error e => .error e
    | .ok s1 => runExit v (.num val) parent s1
  | .str val, parent, s =>
    match runEnter v (.str val) parent s with
    | .error e => .error e
    | .ok s1 => runExit v (.str val) parent s1

/-- `traverseArray(array, parent)` (lines 170-174): traverse the children in
order, threading the state. -/
def traverseArray (v : Visitor σ) : List PNode → PNode → σ → Except JsError σ
  | [], _, s => .ok s
  | child :: rest, parent, s =>
    match traverseNode v child (some parent) s with
    | .error e => .error e
    | .ok s' => traverseArray v rest parent s'

end

/-- `traverser(ast, visitor)` (lines 168-203): `traverseNode(ast, null)`. -/
def traverser (v : Visitor σ) (ast : PNode) (s : σ) : Except JsError σ :=
  traverseNode v ast none s

/-- `true` on `CallExpression` nodes: the JS test
`parent.type === 'CallExpression'`. -/
def PNode.isCallB : PNode → Bool
  | .call _ _ => true
  | _ => false

/-- Target nodes in the form the transformer allocates them: a target
`CallExpression`'s `arguments` array is shared by reference (it is also the
`_context` of the source node), so it is represented as an index `ref` into
the store of arrays in `TState`.  `stmtE` is an `ExpressionStatement`
wrapping such a call. -/
inductive HNode where
  | num (value : String)
  | str (value : String)
  | callE (name : String) (ref : Nat)
  | stmtE (name : String) (ref : Nat)

/-- Mutable state of `transformer` while the traverser runs.

`store` is the heap of target-node arrays; slot `0` is `newAst.body` and a
fresh slot is allocated for each target call's `arguments`.

`ctxOf` records the `_context` property the transformer sets on source
nodes, keyed by the node itself with most-recent-first lookup.  Keying by
value is faithful to JS object identity here: `node._context` is only ever
read (as `parent._context`) while traversing `node`'s children, and because
the traversal is depth-first, every assignment made between `node`'s own
assignment and those reads is to a strict subterm of `node` — never a
structurally equal node — so the front entry found is always the right
one. -/
structure TState where
  ctxOf : List (PNode × Nat)
  store : List (List HNode)

/-- Look up the `_context` recorded for a node (most recent assignment
first); `none` is JS `undefined`. -/
def lookupCtx : List (PNode × Nat) → PNode → Option Nat
  | [], _ => none
  | (q, k) :: rest, n => if PNode.beq q n then some k else lookupCtx rest n

/-- `arr.push(h)` on the store slot `k`.  Reachable states only ever push on
slots that exist (`k < store.length`); `List.set` is a no-op otherwise. -/
def pushSlot (store : List (List HNode)) (k : Nat) (h : HNode) : List (List HNode) :=
  store.set k (store.getD k [] ++ [h])

/-- The transformer's `NumberLiteral.enter` (lines 217-224):
`parent._context.push({ type: 'NumberLiteral', value: node.value })`.
Reading `_context` of a `null` parent, or calling `push` on an `undefined`
`_context`, is a runtime TypeError.  The traverser dispatches this entry
only for `NumberLiteral` nodes, so the non-`num` fallback is unreachable. -/
def numEnter (node : PNode) (parent : Option PNode) (s : TState) : Except JsError TState :=
  match parent with
  | none => .error (.undefinedRead "_context")
  | some p =>
    match lookupCtx s.ctxOf p with
    | none => .error (.undefinedRead "push")
    | some k =>
      match node with
      | .num v => .ok ⟨s.ctxOf, pushSlot s.store k (.num v)⟩
      | _ => .ok s

/-- The transformer's `StringLiteral.enter` (lines 226-233), as `numEnter`. -/
def strEnter (node : PNode) (parent : Option PNode) (s : TState) : Except JsError TState :=
  match parent with
  | none => .error (.undefinedRead "_context")
  | some p =>
    match lookupCtx s.ctxOf p with
    | none => .error (.undefinedRead "push")
    | some k =>
      match node with
      | .str v => .ok ⟨s.ctxOf, pushSlot s.store k (.str v)⟩
      | _ => .ok s

/-- The transformer's `CallExpression.enter` (lines 235-256): build the
target call with a fresh empty `arguments` array (a new store slot `ref`),
record `node._context = expression.arguments`, wrap the call in an
`ExpressionStatement` unless the parent is itself a `CallExpression`, and
push the result into `parent._context`.  `parent.type` on `null`, or
`push` on an `undefined` `_context`, is a runtime TypeError.  The
traverser dispatches this entry only for `CallExpression` nodes. -/
def callEnter (node : PNode) (parent : Option PNode) (s : TState) : Except JsError TState :=
  match node with
  | .call name _ =>
    let ref := s.store.length
    let store1 := s.store ++ [[]]
    let ctx1 := (node, ref) :: s.ctxOf
    match parent with
    | none => .error (.undefinedRead "type")
    | some p =>
      let h : HNode :=
        if p.isCallB then .callE name ref else .stmtE name ref
      match lookupCtx ctx1 p with
      | none => .error (.undefinedRead "push")
      | some k => .ok ⟨ctx1, pushSlot store1 k h⟩
  | _ => .ok s

/-- The visitor `transformer` passes to `traverser` (lines 215-258): `enter`
hooks for the two literal types and `CallExpression`, nothing else. -/
def transformVisitor : Visitor TState where
  program := none
  callExpression := some ⟨some callEnter, none⟩
  numberLiteral := some ⟨some numEnter, none⟩
  stringLiteral := some ⟨some strEnter, none⟩

/-- Target-language AST nodes, the shapes `transformer` builds and
`codeGenerator` consumes: `Program { body }`,
`ExpressionStatement { expression }`, `CallExpression { callee, arguments }`,
`Identifier { name }` and the two literals. -/
inductive TNode where
  | program (body : List TNode)
  | exprStmt (expression : TNode)
  | call (callee : TNode) (args : List TNode)
  | ident (name : String)
  | num (value : String)
  | str (value : String)

/-- Read a final target node out of the store, dereferencing each call's
`arguments` slot.  `fuel` bounds the dereferencing depth; `transformer`
passes `store.length`, which suffices because every reference points to a
slot allocated strictly later than the slot it sits in (slots are allocated
in traversal order, parents before their children), so reference chains are
shorter than the store.  The fuel-0 fallback is unreachable there. -/
def resolveH (store : List (List HNode)) : Nat → HNode → TNode
  | _, .num v => .num v
  | _, .str v => .str v
  | 0, .callE name _ => .call (.ident name) []
  | fuel+1, .callE name ref =>
    .call (.ident name) ((store.getD ref []).map (resolveH store fuel))
  | 0, .stmtE name _ => .exprStmt (.call (.ident name) [])
  | fuel+1, .stmtE name ref =>
    .exprStmt (.call (.ident name) ((store.getD ref []).map (resolveH store fuel)))

/-- `transformer(ast)` from src/index.js (lines 206-261): create `newAst`
with an empty body (store slot 0), set `ast._context = newAst.body`, drive
the traverser with `transformVisitor`, and return the new Program — whose
body is slot 0, read back as a tree. -/
def transformer (ast : PNode) : Except JsError TNode :=
  let s0 : TState := ⟨[(ast, 0)], [[]]⟩
  match traverseNode transformVisitor ast none s0 with
  | .error e => .error e
  | .ok s => .ok (.program ((s.store.getD 0 []).map (resolveH s.store s.store.length)))

mutual

/-- `codeGenerator(node)` from src/index.js (lines 264-284).  The JS
`default: throw new TypeError(node.type)` branch is unreachable on the
closed `TNode` type. -/
def codeGenerator : TNode → String
  | .program body => String.intercalate "\n" (codeGenList body)
  | .exprStmt e => codeGenerator e ++ ";"
  | .call callee args =>
    codeGenerator callee ++ "(" ++ String.intercalate ", " (codeGenList args) ++ ")"
  | .ident n => n
  | .num v => v
  | .str v => "\"" ++ v ++ "\""

/-- `nodes.map(codeGenerator)`, spelled out so the recursion is structural. -/
def codeGenList : List TNode → List String
  | [] => []
  | x :: xs => codeGenerator x :: codeGenList xs

end

/-- The composition run by the demo driver (lines 286-289):
`codeGenerator(transformer(parser(tokenizer(input))))`. -/
def pipeline (fuel : Nat) (input : String) : Option (Except JsError String) :=
  match tokenizer fuel input with
  | none => none
  | some (.error e) => some (.error e)
  | some (.ok tokens) =>
    match parser fuel tokens with
    | none => none
    | some (.error e) => some (.error e)
    | some (.ok ast) =>
      match transformer ast with
      | .error e => some (.error e)
      | .ok newAst => some (.ok (codeGenerator newAst))

example : pipeline 30 "(add 2 (subtract 4 2))" = some (.ok "add(2, subtract(4, 2));") := by
  rfl

mutual

/-- Specification-side structural lowering (spec §4.4): the target node for a
source expression.  `inCall` says whether the node sits in nested-call
position (parent is a `CallExpression`); a call in statement position is
wrapped in an `ExpressionStatement`.  The `program` case is arbitrary —
well-formed source trees have no nested `Program` nodes. -/
def lowerExpr : Bool → PNode → TNode
  | _, .num v => .num v
  | _, .str v => .str v
  | inCall, .call name ps =>
    if inCall then .call (.ident name) (lowerListF true ps)
    else .exprStmt (.call (.ident name) (lowerListF true ps))
  | _, .program body => .program (lowerListF false body)

/-- Lower a list of children, each with the given position flag. -/
def lowerListF : Bool → List PNode → List TNode
  | _, [] => []
  | flag, x :: xs => lowerExpr flag x :: lowerListF flag xs

end

/-- Specification-side transformer (spec §4.4): a pure structural map from
the source Program to the target Program, defined from the source tree's
public fields alone. -/
def transformPure : PNode → TNode
  | .program body => .program (lowerListF false body)
  | e => lowerExpr false e

mutual

/-- A well-formed source expression: a literal, or a call whose params are
well-formed — in particular no nested `Program` nodes, which is every tree
`parser` can produce below the root. -/
def wfExpr : PNode → Bool
  | .num _ => true
  | .str _ => true
  | .call _ ps => wfList ps
  | .program _ => false

def wfList : List PNode → Bool
  | [] => true
  | x :: xs => wfExpr x && wfList xs

end

/-- A well-formed source Program: a `Program` root over well-formed
expressions — the shape `parser` always returns. -/
def wfProgram : PNode → Bool
  | .program body => wfList body
  | _ => false

mutual

/-- Ghost bookkeeping: how many store slots the transformer allocates while
traversing this node (one per `CallExpression`). -/
def slotCount : PNode → Nat
  | .call _ ps => 1 + slotCountList ps
  | _ => 0

def slotCountList : List PNode → Nat
  | [] => 0
  | x :: xs => slotCount x + slotCountList xs

end

/-- Ghost bookkeeping: the `HNode` the transformer pushes into the parent's
`_context` for this node, when the store length at its `enter` is `ref`
(a call's fresh `arguments` slot gets that index).  The `program` case is
arbitrary — unreachable for well-formed trees. -/
def lowerHNode (inCall : Bool) (ref : Nat) : PNode → HNode
  | .num v => .num v
  | .str v => .str v
  | .call name _ => if inCall then .callE name ref else .stmtE name ref
  | .program _ => .num ""

mutual

/-- Ghost bookkeeping: the store slots allocated while traversing this node,
in allocation order, when the store length at its `enter` is `base`: for a
call, its own `arguments` slot (holding its children's `HNode`s) followed
by the slots of its children. -/
def lowerSlots (base : Nat) : PNode → List (List HNode)
  | .call _ ps => argHL true (base+1) ps :: argSlots (base+1) ps
  | _ => []

/-- The `HNode`s a children list pushes into its parent's slot, `base` being
the store length when the first child is entered. -/
def argHL (flag : Bool) (base : Nat) : List PNode → List HNode
  | [] => []
  | x :: xs => lowerHNode flag base x :: argHL flag (base + slotCount x) xs

/-- The slots allocated by a children list, in order. -/
def argSlots (base : Nat) : List PNode → List (List HNode)
  | [] => []
  | x :: xs => lowerSlots base x ++ argSlots (base + slotCount x) xs

end

mutual

/-- Nesting depth of calls (bounds the dereferencing depth `resolveH`
needs). -/
def depth : PNode → Nat
  | .call _ ps => depthList ps + 1
  | _ => 0

def depthList : List PNode → Nat
  | [] => 0
  | x :: xs => max (depth x) (depthList xs)

end

mutual

theorem PNode.beq_refl : ∀ n : PNode, PNode.beq n n = true
  | .program b => by simp [PNode.beq, PNode.beqList_refl b]
  | .call n p => by simp [PNode.beq, PNode.beqList_refl p]
  | .num v => by simp [PNode.beq]
  | .str v => by simp [PNode.beq]

theorem PNode.beqList_refl : ∀ l : List PNode, PNode.beqList l l = true
  | [] => by simp [PNode.beqList]
  | a :: as => by simp [PNode.beqList, PNode.beq_refl a, PNode.beqList_refl as]

end

mutual

theorem PNode.eq_of_beq : ∀ a b : PNode, PNode.beq a b = true → a = b
  | .program b1, .program b2, h => by
    simp only [PNode.beq] at h
    exact congrArg PNode.program (PNode.eqList_of_beq b1 b2 h)
  | .call n1 p1, .call n2 p2, h => by
    simp only [PNode.beq, Bool.and_eq_true, beq_iff_eq] at h
    exact h.1 ▸ congrArg (PNode.call n1) (PNode.eqList_of_beq p1 p2 h.2)
  | .num v1, .num v2, h => by
    simp only [PNode.beq, beq_iff_eq] at h; exact congrArg PNode.num h
  | .str v1, .str v2, h => by
    simp only [PNode.beq, beq_iff_eq] at h; exact congrArg PNode.str h
  | .program _, .call _ _, h => by simp [PNode.beq] at h
  | .program _, .num _, h => by simp [PNode.beq] at h
  | .program _, .str _, h => by simp [PNode.beq] at h
  | .call _ _, .program _, h => by simp [PNode.beq] at h
  | .call _ _, .num _, h => by simp [PNode.beq] at h
  | .call _ _, .str _, h => by simp [PNode.beq] at h
  | .num _, .program _, h => by simp [PNode.beq] at h
  | .num _, .call _ _, h => by simp [PNode.beq] at h
  | .num _, .str _, h => by simp [PNode.beq] at h
  | .str _, .program _, h => by simp [PNode.beq] at h
  | .str _, .call _ _, h => by simp [PNode.beq] at h
  | .str _, .num _, h => by simp [PNode.beq] at h

theorem PNode.eqList_of_beq : ∀ a b : List PNode, PNode.beqList a b = true → a = b
  | [], [], _ => rfl
  | x :: xs, y :: ys, h => by
    simp only [PNode.beqList, Bool.and_eq_true] at h
    exact congrArg₂ (· :: ·) (PNode.eq_of_beq x y h.1) (PNode.eqList_of_beq xs ys h.2)
  | [], _ :: _, h => by simp [PNode.beqList] at h
  | _ :: _, [], h => by simp [PNode.beqList] at h

end

theorem PNode.beq_false_of_ne {a b : PNode} (h : a ≠ b) : PNode.beq a b = false := by
  cases hb : PNode.beq a b with
  | false => rfl
  | true => exact absurd (PNode.eq_of_beq a b hb) h

theorem PNode.ne_of_sizeOf_lt {a b : PNode} (h : sizeOf a < sizeOf b) : b ≠ a := by
  intro hEq; subst hEq; exact lt_irrefl _ h

theorem lookupCtx_cons_self (ctx : List (PNode × Nat)) (n : PNode) (k : Nat) :
    lookupCtx ((n, k) :: ctx) n = some k := by
  simp [lookupCtx, PNode.beq_refl n]

theorem lookupCtx_cons_ne (ctx : List (PNode × Nat)) (q n : PNode) (k : Nat)
    (h : q ≠ n) : lookupCtx ((q, k) :: ctx) n = lookupCtx ctx n := by
  simp [lookupCtx, PNode.beq_false_of_ne h]

theorem lookupCtx_append (adds ctx : List (PNode × Nat)) (n : PNode)
    (h : ∀ p ∈ adds, p.1 ≠ n) :
    lookupCtx (adds ++ ctx) n = lookupCtx ctx n := by
  induction adds with
  | nil => rfl
  | cons a as ih =>
    rw [List.cons_append, lookupCtx_cons_ne _ _ _ _ (h a (List.mem_cons_self a as)),
      ih (fun p hp => h p (List.mem_cons_of_mem a hp))]

/-- Ghost operation: push several elements onto store slot `k` at once
(`pushSlot` iterated). -/
def appendSlot (store : List (List HNode)) (k : Nat) (hs : List HNode) : List (List HNode) :=
  store.set k (store.getD k [] ++ hs)

theorem pushSlot_eq_appendSlot (store : List (List HNode)) (k : Nat) (h : HNode) :
    pushSlot store k h = appendSlot store k [h] := rfl

theorem length_appendSlot (store : List (List HNode)) (k : Nat) (hs : List HNode) :
    (appendSlot store k hs).length = store.length := by
  simp [appendSlot]

theorem length_pushSlot (store : List (List HNode)) (k : Nat) (h : HNode) :
    (pushSlot store k h).length = store.length := by
  simp [pushSlot]

theorem appendSlot_nil (store : List (List HNode)) (k : Nat) (h : k < store.length) :
    appendSlot store k [] = store := by
  apply List.ext_getElem
  · simp [appendSlot]
  · intro i h1 h2
    rcases eq_or_ne k i with rfl | hne
    · simp_all [appendSlot, List.getD_eq_getElem?_getD, List.getElem?_eq_getElem h]
    · simp [appendSlot, List.getElem_set_ne hne]

theorem appendSlot_append_left (A B : List (List HNode)) (k : Nat) (hs : List HNode)
    (h : k < A.length) :
    appendSlot (A ++ B) k hs = appendSlot A k hs ++ B := by
  simp [appendSlot, List.set_append_left _ _ h, List.getElem?_append_left h]

theorem appendSlot_snoc (A : List (List HNode)) (x : List HNode) (hs : List HNode) :
    appendSlot (A ++ [x]) A.length hs = A ++ [x ++ hs] := by
  simp [appendSlot, List.set_append, List.getD_eq_getElem?_getD, List.getElem?_append_right]

theorem appendSlot_appendSlot (store : List (List HNode)) (k : Nat) (hs1 hs2 : List HNode) :
    appendSlot (appendSlot store k hs1) k hs2 = appendSlot store k (hs1 ++ hs2) := by
  by_cases h : k < store.length
  · apply List.ext_getElem
    · simp [appendSlot]
    · intro i h1 h2
      rcases eq_or_ne k i with rfl | hne
      · have hlen : k < (appendSlot store k hs1).length := by simpa [length_appendSlot]
        simp [appendSlot, List.getD_eq_getElem?_getD, List.getElem?_eq_getElem, h, hlen,
          List.getElem_set_self]
      · simp [appendSlot, List.getElem_set_ne hne]
  · have h' : store.length ≤ k := Nat.le_of_not_lt h
    simp [appendSlot, List.set_eq_of_length_le, h', List.getD_eq_getElem?_getD,
      List.getElem?_eq_none, List.length_set]

mutual

theorem lowerSlots_length : ∀ (b : Nat) (e : PNode), (lowerSlots b e).length = slotCount e
  | _, .num _ => by simp [lowerSlots, slotCount]
  | _, .str _ => by simp [lowerSlots, slotCount]
  | _, .program _ => by simp [lowerSlots, slotCount]
  | b, .call _ ps => by
    simp [lowerSlots, slotCount, argSlots_length (b+1) ps]
    omega

theorem argSlots_length : ∀ (b : Nat) (ps : List PNode), (argSlots b ps).length = slotCountList ps
  | _, [] => by simp [argSlots, slotCountList]
  | b, x :: xs => by
    simp [argSlots, slotCountList, lowerSlots_length b x, argSlots_length (b + slotCount x) xs]

end

theorem argHL_length : ∀ (flag : Bool) (b : Nat) (ps : List PNode),
    (argHL flag b ps).length = ps.length
  | _, _, [] => by simp [argHL]
  | flag, b, x :: xs => by simp [argHL, argHL_length flag (b + slotCount x) xs]

mutual

theorem depth_le_slotCount : ∀ e : PNode, depth e ≤ slotCount e
  | .num _ => by simp [depth, slotCount]
  | .str _ => by simp [depth, slotCount]
  | .program _ => by simp [depth, slotCount]
  | .call _ ps => by
    simp only [depth, slotCount]
    exact Nat.add_le_add_right (depthList_le_slotCountList ps) 1 |>.trans (by omega)

theorem depthList_le_slotCountList : ∀ ps : List PNode, depthList ps ≤ slotCountList ps
  | [] => by simp [depthList, slotCountList]
  | x :: xs => by
    simp only [depthList, slotCountList]
    exact max_le ((depth_le_slotCount x).trans (Nat.le_add_right _ _))
      ((depthList_le_slotCountList xs).trans (Nat.le_add_left _ _))

end

theorem sizeOf_mem_params {c : PNode} {name : String} {ps : List PNode} (h : c ∈ ps) :
    sizeOf c < sizeOf (PNode.call name ps) := by
  have h1 : sizeOf c < sizeOf ps := List.sizeOf_lt_of_mem h
  have h2 : sizeOf (PNode.call name ps) = 1 + sizeOf name + sizeOf ps := by
    simp [PNode.call.sizeOf_spec]
  omega

theorem sizeOf_mem_body {c : PNode} {body : List PNode} (h : c ∈ body) :
    sizeOf c < sizeOf (PNode.program body) := by
  have h1 : sizeOf c < sizeOf body := List.sizeOf_lt_of_mem h
  have h2 : sizeOf (PNode.program body) = 1 + sizeOf body := by
    simp [PNode.program.sizeOf_spec]
  omega

theorem traverseNode_call_eq (v : Visitor σ) (name : String) (ps : List PNode)
    (parent : Option PNode) (s : σ) :
    traverseNode v (.call name ps) parent s =
      match runEnter v (.call name ps) parent s with
      | .error e => .error e
      | .ok s1 =>
        match traverseArray v ps (.call name ps) s1 with
        | .error e => .error e
        | .ok s2 => runExit v (.call name ps) parent s2 := by
  simp [traverseNode]

theorem traverseArray_cons_eq (v : Visitor σ) (x : PNode) (xs : List PNode)
    (parent : PNode) (s : σ) :
    traverseArray v (x :: xs) parent s =
      match traverseNode v x (some parent) s with
      | .error e => .error e
      | .ok s' => traverseArray v xs parent s' := by
  simp [traverseArray]

theorem appendSlot_snoc_len (A : List (List HNode)) (hs : List HNode) (n : Nat)
    (h : A.length = n) :
    appendSlot (A ++ [[]]) n hs = A ++ [hs] := by
  subst h
  rw [appendSlot_snoc]
  simp

mutual

theorem traverseNode_tf : ∀ (e pn : PNode) (s : TState) (k : Nat),
    wfExpr e = true →
    lookupCtx s.ctxOf pn = some k →
    k < s.store.length →
    sizeOf e < sizeOf pn →
    ∃ adds : List (PNode × Nat),
      traverseNode transformVisitor e (some pn) s =
        .ok ⟨adds ++ s.ctxOf,
          pushSlot s.store k (lowerHNode pn.isCallB s.store.length e) ++
            lowerSlots s.store.length e⟩ ∧
      ∀ p ∈ adds, sizeOf p.1 ≤ sizeOf e
  | .num v, pn, s, k, hwf, hk, hklt, hsz => by
    refine ⟨[], ?_, by simp⟩
    simp [traverseNode, runEnter, runExit, Visitor.lookup, transformVisitor, numEnter, hk,
      lowerHNode, lowerSlots]
  | .str v, pn, s, k, hwf, hk, hklt, hsz => by
    refine ⟨[], ?_, by simp⟩
    simp [traverseNode, runEnter, runExit, Visitor.lookup, transformVisitor, strEnter, hk,
      lowerHNode, lowerSlots]
  | .program b, pn, s, k, hwf, hk, hklt, hsz => by
    simp [wfExpr] at hwf
  | .call name ps, pn, s, k, hwf, hk, hklt, hsz => by
    simp only [wfExpr] at hwf
    have hne : PNode.call name ps ≠ pn := by
      intro hEq
      rw [hEq] at hsz
      exact lt_irrefl _ hsz
    have henter : runEnter transformVisitor (.call name ps) (some pn) s =
        .ok ⟨(PNode.call name ps, s.store.length) :: s.ctxOf,
          pushSlot s.store k (lowerHNode pn.isCallB s.store.length (.call name ps)) ++ [[]]⟩ := by
      simp only [runEnter, Visitor.lookup, transformVisitor, callEnter,
        lookupCtx_cons_ne _ _ _ _ hne, hk]
      refine congrArg Except.ok (congrArg (TState.mk _) ?_)
      rw [pushSlot_eq_appendSlot, appendSlot_append_left _ _ _ _ hklt, ← pushSlot_eq_appendSlot]
      simp [lowerHNode]
    have hlen1 : (pushSlot s.store k (lowerHNode pn.isCallB s.store.length (.call name ps)) ++
        [([] : List HNode)]).length = s.store.length + 1 := by
      simp [length_pushSlot]
    have hlt1 : s.store.length <
        (pushSlot s.store k (lowerHNode pn.isCallB s.store.length (.call name ps)) ++
          [([] : List HNode)]).length := by
      rw [hlen1]
      omega
    have hchild : ∀ c ∈ ps, sizeOf c < sizeOf (PNode.call name ps) :=
      fun c hc => sizeOf_mem_params hc
    obtain ⟨adds1, heq1, hb1⟩ :=
      traverseArray_tf ps (.call name ps)
        ⟨(PNode.call name ps, s.store.length) :: s.ctxOf,
          pushSlot s.store k (lowerHNode pn.isCallB s.store.length (.call name ps)) ++ [[]]⟩
        s.store.length hwf
        (lookupCtx_cons_self _ _ _)
        hlt1
        hchild
    have hisc : (PNode.call name ps).isCallB = true := rfl
    rw [hisc] at heq1
    simp only [hlen1] at heq1
    rw [appendSlot_snoc_len
      (pushSlot s.store k (lowerHNode pn.isCallB s.store.length (.call name ps)))
      (argHL true (s.store.length + 1) ps) s.store.length (length_pushSlot _ _ _)] at heq1
    refine ⟨adds1 ++ [(PNode.call name ps, s.store.length)], ?_, ?_⟩
    · rw [traverseNode_call_eq, henter]
      dsimp only
      rw [heq1]
      dsimp only
      simp only [runExit, Visitor.lookup, transformVisitor]
      refine congrArg Except.ok (congrArg₂ TState.mk ?_ ?_)
      · simp
      · rw [lowerSlots]
        simp
    · intro p hp
      rcases List.mem_append.mp hp with h | h
      · obtain ⟨c, hc, hle⟩ := hb1 p h
        exact le_of_lt (hle.trans_lt (sizeOf_mem_params hc))
      · simp at h
        rw [h]

theorem traverseArray_tf : ∀ (ps : List PNode) (pn : PNode) (s : TState) (k : Nat),
    wfList ps = true →
    lookupCtx s.ctxOf pn = some k →
    k < s.store.length →
    (∀ c ∈ ps, sizeOf c < sizeOf pn) →
    ∃ adds : List (PNode × Nat),
      traverseArray transformVisitor ps pn s =
        .ok ⟨adds ++ s.ctxOf,
          appendSlot s.store k (argHL pn.isCallB s.store.length ps) ++
            argSlots s.store.length ps⟩ ∧
      ∀ p ∈ adds, ∃ c ∈ ps, sizeOf p.1 ≤ sizeOf c
  | [], pn, s, k, hwf, hk, hklt, hsz => by
    refine ⟨[], ?_, by simp⟩
    simp [traverseArray, argHL, argSlots, appendSlot_nil s.store k hklt]
  | x :: xs, pn, s, k, hwf, hk, hklt, hsz => by
    simp only [wfList, Bool.and_eq_true] at hwf
    obtain ⟨adds1, heq1, hb1⟩ := traverseNode_tf x pn s k hwf.1 hk hklt (hsz x (by simp))
    have hkeys : ∀ p ∈ adds1, p.1 ≠ pn := by
      intro p hp hEq
      have h1 := hb1 p hp
      have h2 := hsz x (by simp)
      rw [hEq] at h1
      omega
    have hk1 : lookupCtx (adds1 ++ s.ctxOf) pn = some k := by
      rw [lookupCtx_append _ _ _ hkeys]
      exact hk
    have hlen1 : (pushSlot s.store k (lowerHNode pn.isCallB s.store.length x) ++
        lowerSlots s.store.length x).length = s.store.length + slotCount x := by
      simp [length_pushSlot, lowerSlots_length]
    have hlt1 : k < (pushSlot s.store k (lowerHNode pn.isCallB s.store.length x) ++
        lowerSlots s.store.length x).length := by
      rw [hlen1]
      omega
    obtain ⟨adds2, heq2, hb2⟩ := traverseArray_tf xs pn
      ⟨adds1 ++ s.ctxOf,
        pushSlot s.store k (lowerHNode pn.isCallB s.store.length x) ++
          lowerSlots s.store.length x⟩
      k hwf.2 hk1 hlt1
      (fun c hc => hsz c (by simp [hc]))
    simp only [hlen1] at heq2
    rw [show appendSlot
        (pushSlot s.store k (lowerHNode pn.isCallB s.store.length x) ++
          lowerSlots s.store.length x) k
        (argHL pn.isCallB (s.store.length + slotCount x) xs) =
        appendSlot s.store k
          (lowerHNode pn.isCallB s.store.length x ::
            argHL pn.isCallB (s.store.length + slotCount x) xs) ++
          lowerSlots s.store.length x from by
      rw [appendSlot_append_left _ _ _ _ (by rw [length_pushSlot]; exact hklt),
        pushSlot_eq_appendSlot, appendSlot_appendSlot]
      simp] at heq2
    refine ⟨adds2 ++ adds1, ?_, ?_⟩
    · rw [traverseArray_cons_eq, heq1]
      dsimp only
      rw [heq2]
      refine congrArg Except.ok (congrArg₂ TState.mk ?_ ?_)
      · simp
      · rw [argHL, argSlots]
        simp
    · intro p hp
      rcases List.mem_append.mp hp with h | h
      · obtain ⟨c, hc, hle⟩ := hb2 p h
        exact ⟨c, by simp [hc], hle⟩
      · exact ⟨x, by simp, hb1 p h⟩

end

theorem getElem?_at_append (pre : List (List HNode)) (x : List HNode)
    (rest : List (List HNode)) :
    (pre ++ x :: rest)[pre.length]? = some x := by
  simp [List.getElem?_append_right (le_refl pre.length)]

mutual

theorem resolveH_lower : ∀ (e : PNode) (flag : Bool) (b : Nat)
    (S pre post : List (List HNode)) (fuel : Nat),
    wfExpr e = true →
    S = pre ++ lowerSlots b e ++ post →
    pre.length = b →
    depth e ≤ fuel →
    resolveH S fuel (lowerHNode flag b e) = lowerExpr flag e
  | .num v, flag, b, S, pre, post, fuel, hwf, hS, hpre, hfuel => by
    cases fuel <;> simp [resolveH, lowerHNode, lowerExpr]
  | .str v, flag, b, S, pre, post, fuel, hwf, hS, hpre, hfuel => by
    cases fuel <;> simp [resolveH, lowerHNode, lowerExpr]
  | .program _, flag, b, S, pre, post, fuel, hwf, hS, hpre, hfuel => by
    simp [wfExpr] at hwf
  | .call name ps, flag, b, S, pre, post, fuel, hwf, hS, hpre, hfuel => by
    simp only [wfExpr] at hwf
    cases fuel with
    | zero => simp [depth] at hfuel
    | succ f =>
      have hget : S[b]? = some (argHL true (b+1) ps) := by
        rw [hS, lowerSlots, List.append_assoc, List.cons_append, ← hpre]
        exact getElem?_at_append pre _ _
      have hdec : S = (pre ++ [argHL true (b+1) ps]) ++ argSlots (b+1) ps ++ post := by
        rw [hS, lowerSlots]
        simp
      have hlist := resolveList_lower ps true (b+1) S (pre ++ [argHL true (b+1) ps]) post f
        hwf hdec (by simp [hpre]) (by simp only [depth] at hfuel; omega)
      cases flag with
      | true => simp [lowerHNode, resolveH, hget, hlist, lowerExpr]
      | false => simp [lowerHNode, resolveH, hget, hlist, lowerExpr]

theorem resolveList_lower : ∀ (ps : List PNode) (flag : Bool) (b : Nat)
    (S pre post : List (List HNode)) (fuel : Nat),
    wfList ps = true →
    S = pre ++ argSlots b ps ++ post →
    pre.length = b →
    depthList ps ≤ fuel →
    (argHL flag b ps).map (resolveH S fuel) = lowerListF flag ps
  | [], flag, b, S, pre, post, fuel, hwf, hS, hpre, hfuel => by
    simp [argHL, lowerListF]
  | x :: xs, flag, b, S, pre, post, fuel, hwf, hS, hpre, hfuel => by
    simp only [wfList, Bool.and_eq_true] at hwf
    simp only [depthList, max_le_iff] at hfuel
    have hSx : S = pre ++ lowerSlots b x ++ (argSlots (b + slotCount x) xs ++ post) := by
      rw [hS, argSlots]
      simp
    have hhead := resolveH_lower x flag b S pre
      (argSlots (b + slotCount x) xs ++ post) fuel hwf.1 hSx hpre hfuel.1
    have hSxs : S = (pre ++ lowerSlots b x) ++ argSlots (b + slotCount x) xs ++ post := by
      rw [hS, argSlots]
      simp
    have htail := resolveList_lower xs flag (b + slotCount x) S (pre ++ lowerSlots b x) post
      fuel hwf.2 hSxs (by simp [hpre, lowerSlots_length]) hfuel.2
    rw [argHL, lowerListF, List.map_cons, hhead, htail]

end

theorem traverseNode_program_eq (v : Visitor σ) (body : List PNode)
    (parent : Option PNode) (s : σ) :
    traverseNode v (.program body) parent s =
      match runEnter v (.program body) parent s with
      | .error e => .error e
      | .ok s1 =>
        match traverseArray v body (.program body) s1 with
        | .error e => .error e
        | .ok s2 => runExit v (.program body) parent s2 := by
  simp [traverseNode]

theorem appendSlot_singleton (hs : List HNode) : appendSlot [[]] 0 hs = [hs] := by
  simp [appendSlot]

/-- Central refinement: on well-formed Programs (which is everything the
parser can produce), the mutating transformer computes exactly the pure
structural lowering of the source tree's public fields. -/
theorem transformer_eq_pure : ∀ ast : PNode, wfProgram ast = true →
    transformer ast = .ok (transformPure ast)
  | .num _, hwf => by simp [wfProgram] at hwf
  | .str _, hwf => by simp [wfProgram] at hwf
  | .call _ _, hwf => by simp [wfProgram] at hwf
  | .program body, hwf => by
    simp only [wfProgram] at hwf
    obtain ⟨adds, heq, _⟩ := traverseArray_tf body (.program body)
      ⟨[(.program body, 0)], [[]]⟩ 0 hwf
      (lookupCtx_cons_self [] _ 0)
      (by simp)
      (fun c hc => sizeOf_mem_body hc)
    have hisc : (PNode.program body).isCallB = false := rfl
    rw [hisc] at heq
    have hlen0 : (⟨[(.program body, 0)], [[]]⟩ : TState).store.length = 1 := rfl
    rw [hlen0] at heq
    rw [show appendSlot (⟨[(.program body, 0)], [[]]⟩ : TState).store 0 (argHL false 1 body) =
      [argHL false 1 body] from appendSlot_singleton _] at heq
    simp only [transformer, traverseNode_program_eq]
    rw [show runEnter transformVisitor (.program body) none
        ⟨[(.program body, 0)], [[]]⟩ = .ok ⟨[(.program body, 0)], [[]]⟩ from by
      simp [runEnter, Visitor.lookup, transformVisitor]]
    dsimp only
    rw [heq]
    dsimp only
    rw [show runExit transformVisitor (.program body) none
        ⟨adds ++ (⟨[(.program body, 0)], [[]]⟩ : TState).ctxOf,
          [argHL false 1 body] ++ argSlots 1 body⟩ =
        .ok ⟨adds ++ (⟨[(.program body, 0)], [[]]⟩ : TState).ctxOf,
          [argHL false 1 body] ++ argSlots 1 body⟩ from by
      simp [runExit, Visitor.lookup, transformVisitor]]
    dsimp only
    have hget0 : (([argHL false 1 body] ++ argSlots 1 body).getD 0 []) = argHL false 1 body := by
      simp
    rw [hget0]
    have hfuel : depthList body ≤ ([argHL false 1 body] ++ argSlots 1 body).length := by
      have h1 := depthList_le_slotCountList body
      have h2 : (argSlots 1 body).length = slotCountList body := argSlots_length 1 body
      simp only [List.length_append, List.length_cons, List.length_nil, h2]
      omega
    rw [resolveList_lower body false 1 ([argHL false 1 body] ++ argSlots 1 body)
      [argHL false 1 body] [] _ hwf (by simp) (by simp) hfuel]
    simp [transformPure]

/-- The kind of a traversal event. -/
inductive EvKind where
  | enter
  | exit
deriving DecidableEq, Repr

mutual

/-- The depth-first event schedule the traverser is specified to follow
(spec §4.3): enter a node, handle its children left to right (`Program →
body`, `CallExpression → params`, literals have none), then exit it.  Each
event carries the node and the parent passed to the callbacks. -/
def dfsEvents : PNode → Option PNode → List (EvKind × PNode × Option PNode)
  | .program body, parent =>
    (.enter, .program body, parent) ::
      dfsEventsList body (.program body) ++ [(.exit, .program body, parent)]
  | .call name ps, parent =>
    (.enter, .call name ps, parent) ::
      dfsEventsList ps (.call name ps) ++ [(.exit, .call name ps, parent)]
  | .num v, parent => [(.enter, .num v, parent), (.exit, .num v, parent)]
  | .str v, parent => [(.enter, .str v, parent), (.exit, .str v, parent)]

/-- Events of a child list, left to right. -/
def dfsEventsList : List PNode → PNode → List (EvKind × PNode × Option PNode)
  | [], _ => []
  | x :: xs, parent => dfsEvents x (some parent) ++ dfsEventsList xs parent

end

/-- Run the callback a visitor registers for one event (if any). -/
def applyEvent (v : Visitor σ) : (EvKind × PNode × Option PNode) → σ → Except JsError σ
  | (.enter, n, p), s => runEnter v n p s
  | (.exit, n, p), s => runExit v n p s

/-- Run a visitor's callbacks over an event list in order, stopping at the
first thrown error. -/
def applyEvents (v : Visitor σ) : List (EvKind × PNode × Option PNode) → σ → Except JsError σ
  | [], s => .ok s
  | ev :: evs, s =>
    match applyEvent v ev s with
    | .error e => .error e
    | .ok s' => applyEvents v evs s'

theorem applyEvents_append (v : Visitor σ) :
    ∀ (a b : List (EvKind × PNode × Option PNode)) (s : σ),
    applyEvents v (a ++ b) s =
      match applyEvents v a s with
      | .error e => .error e
      | .ok s' => applyEvents v b s'
  | [], b, s => by simp [applyEvents]
  | ev :: evs, b, s => by
    cases h : applyEvent v ev s with
    | error e => simp [applyEvents, h]
    | ok s' => simp [applyEvents, h, applyEvents_append v evs b s']

mutual

theorem traverseNode_events : ∀ (node : PNode) (parent : Option PNode) (v : Visitor σ) (s : σ),
    traverseNode v node parent s = applyEvents v (dfsEvents node parent) s
  | .program body, parent, v, s => by
    cases h1 : runEnter v (.program body) parent s with
    | error e => simp [traverseNode_program_eq, dfsEvents, applyEvents, applyEvent, h1]
    | ok s1 =>
      have harr := traverseArray_events body (.program body) v s1
      cases h2 : traverseArray v body (.program body) s1 with
      | error e =>
        rw [h2] at harr
        simp [traverseNode_program_eq, dfsEvents, applyEvents, applyEvent, h1,
          applyEvents_append, ← harr, h2]
      | ok s2 =>
        rw [h2] at harr
        cases h3 : runExit v (.program body) parent s2 <;>
          simp [traverseNode_program_eq, dfsEvents, applyEvents, applyEvent, h1,
            applyEvents_append, ← harr, h2, h3]
  | .call name ps, parent, v, s => by
    cases h1 : runEnter v (.call name ps) parent s with
    | error e => simp [traverseNode_call_eq, dfsEvents, applyEvents, applyEvent, h1]
    | ok s1 =>
      have harr := traverseArray_events ps (.call name ps) v s1
      cases h2 : traverseArray v ps (.call name ps) s1 with
      | error e =>
        rw [h2] at harr
        simp [traverseNode_call_eq, dfsEvents, applyEvents, applyEvent, h1,
          applyEvents_append, ← harr, h2]
      | ok s2 =>
        rw [h2] at harr
        cases h3 : runExit v (.call name ps) parent s2 <;>
          simp [traverseNode_call_eq, dfsEvents, applyEvents, applyEvent, h1,
            applyEvents_append, ← harr, h2, h3]
  | .num val, parent, v, s => by
    cases h1 : runEnter v (.num val) parent s with
    | error e => simp [traverseNode, dfsEvents, applyEvents, applyEvent, h1]
    | ok s1 =>
      cases h2 : runExit v (.num val) parent s1 <;>
        simp [traverseNode, dfsEvents, applyEvents, applyEvent, h1, h2]
  | .str val, parent, v, s => by
    cases h1 : runEnter v (.str val) parent s with
    | error e => simp [traverseNode, dfsEvents, applyEvents, applyEvent, h1]
    | ok s1 =>
      cases h2 : runExit v (.str val) parent s1 <;>
        simp [traverseNode, dfsEvents, applyEvents, applyEvent, h1, h2]

theorem traverseArray_events : ∀ (l : List PNode) (parent : PNode) (v : Visitor σ) (s : σ),
    traverseArray v l parent s = applyEvents v (dfsEventsList l parent) s
  | [], parent, v, s => by simp [traverseArray, dfsEventsList, applyEvents]
  | x :: xs, parent, v, s => by
    have hnode := traverseNode_events x (some parent) v s
    cases h : traverseNode v x (some parent) s with
    | error e =>
      rw [h] at hnode
      simp [traverseArray_cons_eq, dfsEventsList, applyEvents_append, ← hnode, h]
    | ok s' =>
      rw [h] at hnode
      simp [traverseArray_cons_eq, dfsEventsList, applyEvents_append, ← hnode, h,
        traverseArray_events xs parent v s']

end

theorem char_eq_iff_toNat (c d : Char) : c = d ↔ c.toNat = d.toNat :=
  ⟨fun h => h ▸ rfl, fun h => Char.eq_of_val_eq (UInt32.ext h)⟩

theorem char_le_iff_toNat (c d : Char) : c ≤ d ↔ c.toNat ≤ d.toNat := ge_iff_le

/-- A digit is not a parenthesis. -/
theorem numTest_not_paren {c : Char} (h : numTest c = true) :
    (c == '(' || c == ')') = false := by
  simp only [numTest, Bool.and_eq_true, decide_eq_true_eq] at h
  obtain ⟨h1, h2⟩ := h
  have hlo : 48 ≤ c.toNat := h1
  have hhi : c.toNat ≤ 57 := h2
  simp only [Bool.or_eq_false_iff, beq_eq_false_iff_ne, ne_eq, char_eq_iff_toNat,
    show ('(' : Char).toNat = 40 from rfl, show (')' : Char).toNat = 41 from rfl]
  omega

/-- A digit does not match the JS `\s` whitespace class. -/
theorem numTest_not_ws {c : Char} (h : numTest c = true) : wsTest c = false := by
  simp only [numTest, Bool.and_eq_true, decide_eq_true_eq] at h
  obtain ⟨h1, h2⟩ := h
  have hlo : 48 ≤ c.toNat := h1
  have hhi : c.toNat ≤ 57 := h2
  simp only [wsTest, Bool.or_eq_false_iff, beq_eq_false_iff_ne, ne_eq, Bool.and_eq_false_iff,
    decide_eq_false_iff_not, char_eq_iff_toNat, char_le_iff_toNat,
    show (' ' : Char).toNat = 32 from rfl, show ('\t' : Char).toNat = 9 from rfl,
    show ('\n' : Char).toNat = 10 from rfl, show ('\x0b' : Char).toNat = 11 from rfl,
    show ('\x0c' : Char).toNat = 12 from rfl, show ('\r' : Char).toNat = 13 from rfl,
    show ('\u00A0' : Char).toNat = 160 from rfl, show ('\u1680' : Char).toNat = 5760 from rfl,
    show ('\u2000' : Char).toNat = 8192 from rfl, show ('\u200A' : Char).toNat = 8202 from rfl,
    show ('\u2028' : Char).toNat = 8232 from rfl, show ('\u2029' : Char).toNat = 8233 from rfl,
    show ('\u202F' : Char).toNat = 8239 from rfl, show ('\u205F' : Char).toNat = 8287 from rfl,
    show ('\u3000' : Char).toNat = 12288 from rfl, show ('\uFEFF' : Char).toNat = 65279 from rfl]
  omega

mutual

/-- Every Number token the main loop ever appends holds exactly one
character. -/
theorem tokLoop_num_len : ∀ (fuel : Nat) (input : List Char) (current : Nat)
    (tokens res : List Token),
    tokLoop fuel input current tokens = some (.ok res) →
    (∀ t ∈ tokens, t.type = .number → t.value.length = 1) →
    ∀ t ∈ res, t.type = .number → t.value.length = 1
  | 0, _, _, _, _ => by
    intro h _
    simp [tokLoop] at h
  | fuel+1, input, current, tokens, res => by
    intro h hinv
    rw [tokLoop] at h
    cases hc : input[current]? with
    | none =>
      rw [hc] at h
      simp only [Option.some.injEq, Except.ok.injEq] at h
      exact h ▸ hinv
    | some char =>
      rw [hc] at h
      dsimp only at h
      split at h
      · exact tokLoop_num_len fuel input (current+1) _ res h (by
          intro t ht htype
          rcases List.mem_append.mp ht with h1 | h1
          · exact hinv t h1 htype
          · simp at h1
            rw [h1] at htype
            simp at htype)
      · split at h
        · exact tokLoop_num_len fuel input (current+1) tokens res h hinv
        · split at h
          · exact tokLoop_num_len fuel input (current+1) _ res h (by
              intro t ht htype
              rcases List.mem_append.mp ht with h1 | h1
              · exact hinv t h1 htype
              · simp at h1
                rw [h1]
                rfl)
          · split at h
            · exact strLoop_num_len fuel input (current+1) "" tokens res h hinv
            · split at h
              · exact nameLoop_num_len fuel input current "" tokens res h hinv
              · simp at h

theorem strLoop_num_len : ∀ (fuel : Nat) (input : List Char) (current : Nat)
    (value : String) (tokens res : List Token),
    strLoop fuel input current value tokens = some (.ok res) →
    (∀ t ∈ tokens, t.type = .number → t.value.length = 1) →
    ∀ t ∈ res, t.type = .number → t.value.length = 1
  | 0, _, _, _, _, _ => by
    intro h _
    simp [strLoop] at h
  | fuel+1, input, current, value, tokens, res => by
    intro h hinv
    rw [strLoop] at h
    cases hc : input[current]? with
    | none =>
      rw [hc] at h
      exact strLoop_num_len fuel input (current+1) _ tokens res h hinv
    | some c =>
      rw [hc] at h
      dsimp only at h
      split at h
      · exact tokLoop_num_len fuel input (current+1) _ res h (by
          intro t ht htype
          rcases List.mem_append.mp ht with h1 | h1
          · exact hinv t h1 htype
          · simp at h1
            rw [h1] at htype
            simp at htype)
      · exact strLoop_num_len fuel input (current+1) _ tokens res h hinv

theorem nameLoop_num_len : ∀ (fuel : Nat) (input : List Char) (current : Nat)
    (value : String) (tokens res : List Token),
    nameLoop fuel input current value tokens = some (.ok res) →
    (∀ t ∈ tokens, t.type = .number → t.value.length = 1) →
    ∀ t ∈ res, t.type = .number → t.value.length = 1
  | 0, _, _, _, _, _ => by
    intro h _
    simp [nameLoop] at h
  | fuel+1, input, current, value, tokens, res => by
    intro h hinv
    rw [nameLoop] at h
    cases hc : input[current]? with
    | none =>
      rw [hc] at h
      exact nameLoop_num_len fuel input (current+1) _ tokens res h hinv
    | some c =>
      rw [hc] at h
      dsimp only at h
      split at h
      · exact nameLoop_num_len fuel input (current+1) _ tokens res h hinv
      · exact tokLoop_num_len fuel input current _ res h (by
          intro t ht htype
          rcases List.mem_append.mp ht with h1 | h1
          · exact hinv t h1 htype
          · simp at h1
            rw [h1] at htype
            simp at htype)

end

/-- `tokenizer` never returns a Number token longer than one character. -/
theorem tokenizer_num_singleton (fuel : Nat) (input : String) (res : List Token)
    (h : tokenizer fuel input = some (.ok res)) :
    ∀ t ∈ res, t.type = .number → t.value.length = 1 :=
  tokLoop_num_len fuel input.data 0 [] res h (by simp)

/-- Digit-run processing: while the scanner sits on a run of digits, it emits
one single-character Number token per digit, in input order, advancing one
position each iteration. -/
theorem tokLoop_digit_run : ∀ (ds : List Char) (fuel : Nat) (input : List Char)
    (current : Nat) (tokens : List Token),
    (∀ c ∈ ds, numTest c = true) →
    (∀ i, (h : i < ds.length) → input[current + i]? = some (ds.get ⟨i, h⟩)) →
    tokLoop (ds.length + fuel) input current tokens =
      tokLoop fuel input (current + ds.length)
        (tokens ++ ds.map (fun c => ⟨.number, String.mk [c]⟩))
  | [], fuel, input, current, tokens, _, _ => by simp
  | c :: cs, fuel, input, current, tokens, hd, hin => by
    have hc : input[current]? = some c := by simpa using hin 0 (by simp)
    have hnum : numTest c = true := hd c (by simp)
    have hlen : (c :: cs).length + fuel = (cs.length + fuel) + 1 := by
      simp [Nat.succ_add]
    rw [hlen, tokLoop, hc]
    dsimp only
    rw [if_neg (by rw [numTest_not_paren hnum]; exact Bool.false_ne_true),
      if_neg (by rw [numTest_not_ws hnum]; exact Bool.false_ne_true),
      if_pos hnum]
    have hrec := tokLoop_digit_run cs fuel input (current+1)
      (tokens ++ [⟨.number, String.mk [c]⟩]) (fun d hdm => hd d (by simp [hdm]))
      (by
        intro i hi
        have := hin (i+1) (by simpa using Nat.succ_lt_succ hi)
        simpa [Nat.add_comm, Nat.add_assoc, Nat.add_left_comm] using this)
    rw [hrec]
    have harr : current + 1 + cs.length = current + (c :: cs).length := by
      simp [Nat.succ_add, Nat.add_comm, Nat.add_assoc, Nat.add_left_comm]
    rw [harr]
    simp

/-- If no closing quote ever appears at or after `current`, the string-mode
loop of the tokenizer never terminates: past the end of input it compares
`undefined !== '"'` forever. -/
theorem strLoop_diverges : ∀ (fuel : Nat) (input : List Char) (current : Nat)
    (value : String) (tokens : List Token),
    (∀ j, current ≤ j → input[j]? ≠ some '"') →
    strLoop fuel input current value tokens = none
  | 0, _, _, _, _, _ => by simp [strLoop]
  | fuel+1, input, current, value, tokens, hq => by
    rw [strLoop]
    cases hc : input[current]? with
    | none =>
      exact strLoop_diverges fuel input (current+1) _ tokens (fun j hj => hq j (by omega))
    | some c =>
      have hcq : ¬((c == '"') = true) := by
        intro hb
        simp only [beq_iff_eq] at hb
        exact hq current (le_refl _) (by rw [hc, hb])
      dsimp only
      rw [if_neg hcq]
      exact strLoop_diverges fuel input (current+1) _ tokens (fun j hj => hq j (by omega))

/-- If every character at or after `current` is a letter until the input
ends, the name-accumulation loop never terminates: past the end of input
`LETTER.test(undefined)` tests the string "undefined" and stays true. -/
theorem nameLoop_diverges : ∀ (fuel : Nat) (input : List Char) (current : Nat)
    (value : String) (tokens : List Token),
    (∀ j c, current ≤ j → input[j]? = some c → letterTest c = true) →
    nameLoop fuel input current value tokens = none
  | 0, _, _, _, _, _ => by simp [nameLoop]
  | fuel+1, input, current, value, tokens, hl => by
    rw [nameLoop]
    cases hc : input[current]? with
    | none =>
      exact nameLoop_diverges fuel input (current+1) _ tokens
        (fun j c hj hjc => hl j c (by omega) hjc)
    | some c =>
      dsimp only
      rw [if_pos (hl current c (le_refl _) hc)]
      exact nameLoop_diverges fuel input (current+1) _ tokens
        (fun j d hj hjd => hl j d (by omega) hjd)

/-- The tokenizer never finishes on the unterminated string input `"abc`
(no fuel suffices: the JS loop runs forever). -/
theorem tokenizer_unterminated_diverges : ∀ fuel : Nat, tokenizer fuel "\"abc" = none
  | 0 => by simp [tokenizer, tokLoop]
  | fuel+1 => by
    have hdata : ("\"abc" : String).data = ['"', 'a', 'b', 'c'] := rfl
    rw [tokenizer, hdata, tokLoop]
    rw [show (['"', 'a', 'b', 'c'] : List Char)[0]? = some '"' from rfl]
    dsimp only
    rw [if_neg (by decide), if_neg (by decide), if_neg (by decide), if_pos (by decide)]
    apply strLoop_diverges
    intro j hj
    match j, hj with
    | 1, _ => decide
    | 2, _ => decide
    | 3, _ => decide
    | j+4, _ =>
      rw [List.getElem?_eq_none (by simp)]
      simp

/-- The tokenizer never finishes on the input `add`, which ends inside a
name: the letter loop runs past the end of input forever. -/
theorem tokenizer_name_diverges : ∀ fuel : Nat, tokenizer fuel "add" = none
  | 0 => by simp [tokenizer, tokLoop]
  | fuel+1 => by
    have hdata : ("add" : String).data = ['a', 'd', 'd'] := rfl
    rw [tokenizer, hdata, tokLoop]
    rw [show (['a', 'd', 'd'] : List Char)[0]? = some 'a' from rfl]
    dsimp only
    rw [if_neg (by decide), if_neg (by decide), if_neg (by decide), if_neg (by decide),
      if_pos (by decide)]
    apply nameLoop_diverges
    intro j c _ hjc
    match j, hjc with
    | 0, h => cases h; decide
    | 1, h => cases h; decide
    | 2, h => cases h; decide
    | j+3, h => rw [List.getElem?_eq_none (by simp)] at h; cases h

/-- The parser's top-level loop never finishes when the first unconsumed
token is a stray `)` paren: `walk()` returns `undefined` without advancing
`current`, and the loop repeats the identical iteration forever. -/
theorem parseLoop_stray : ∀ fuel : Nat, parseLoop fuel [⟨.paren, ")"⟩] 0 [] = none
  | 0 => by simp [parseLoop]
  | fuel+1 => by
    rw [parseLoop]
    rw [if_pos (by simp)]
    cases fuel with
    | zero => simp [walk]
    | succ f =>
      rw [show walk (f+1) [⟨.paren, ")"⟩] 0 = some (.ok (none, 0)) from by
        rw [walk]
        rfl]
      exact parseLoop_stray (f+1)

/-- `parser` never finishes on the token list `[)]`. -/
theorem parser_stray (fuel : Nat) : parser fuel [⟨.paren, ")"⟩] = none := by
  rw [parser, parseLoop_stray fuel]

/-- Hitting any character that is not a paren, whitespace, digit, quote or
letter makes the tokenizer throw its SyntaxError naming the character —
and nothing else: the message carries no position. -/
theorem tokLoop_unrecognized (fuel : Nat) (input : List Char) (current : Nat)
    (tokens : List Token) (c : Char)
    (hc : input[current]? = some c)
    (h1 : (c == '(' || c == ')') = false) (h2 : wsTest c = false)
    (h3 : numTest c = false) (h4 : (c == '"') = false) (h5 : letterTest c = false) :
    tokLoop (fuel+1) input current tokens =
      some (.error (.syntaxError ("I dont know what this character is: " ++ String.mk [c]))) := by
  rw [tokLoop, hc]
  dsimp only
  rw [if_neg (by rw [h1]; exact Bool.false_ne_true), if_neg (by rw [h2]; exact Bool.false_ne_true),
    if_neg (by rw [h3]; exact Bool.false_ne_true), if_neg (by rw [h4]; exact Bool.false_ne_true),
    if_neg (by rw [h5]; exact Bool.false_ne_true)]

/-- `xs` occurs contiguously (verbatim) inside `ys`. -/
def SubSeg (xs ys : List Char) : Prop := ∃ as bs, ys = as ++ xs ++ bs

theorem SubSeg.refl (xs : List Char) : SubSeg xs xs := ⟨[], [], by simp⟩

theorem SubSeg.append_left {xs ys : List Char} (zs : List Char) (h : SubSeg xs ys) :
    SubSeg xs (zs ++ ys) := by
  obtain ⟨as, bs, rfl⟩ := h
  exact ⟨zs ++ as, bs, by simp⟩

theorem SubSeg.append_right {xs ys : List Char} (zs : List Char) (h : SubSeg xs ys) :
    SubSeg xs (ys ++ zs) := by
  obtain ⟨as, bs, rfl⟩ := h
  exact ⟨as, bs ++ zs, by simp⟩

theorem SubSeg.trans {xs ys zs : List Char} (h1 : SubSeg xs ys) (h2 : SubSeg ys zs) :
    SubSeg xs zs := by
  obtain ⟨as, bs, rfl⟩ := h1
  obtain ⟨cs, ds, rfl⟩ := h2
  exact ⟨cs ++ as, bs ++ ds, by simp⟩

mutual

/-- All literal values and call/identifier names occurring in a source
tree, in traversal order. -/
def stringsOf : PNode → List String
  | .program body => stringsOfList body
  | .call name ps => name :: stringsOfList ps
  | .num v => [v]
  | .str v => [v]

def stringsOfList : List PNode → List String
  | [] => []
  | x :: xs => stringsOf x ++ stringsOfList xs

end

mutual

/-- All literal values and identifier names occurring in a target tree. -/
def stringsOfT : TNode → List String
  | .program body => stringsOfTList body
  | .exprStmt e => stringsOfT e
  | .call callee args => stringsOfT callee ++ stringsOfTList args
  | .ident n => [n]
  | .num v => [v]
  | .str v => [v]

def stringsOfTList : List TNode → List String
  | [] => []
  | x :: xs => stringsOfT x ++ stringsOfTList xs

end

mutual

theorem stringsOfT_lower : ∀ (flag : Bool) (e : PNode),
    stringsOfT (lowerExpr flag e) = stringsOf e
  | _, .num v => by simp [lowerExpr, stringsOfT, stringsOf]
  | _, .str v => by simp [lowerExpr, stringsOfT, stringsOf]
  | flag, .call name ps => by
    cases flag <;>
      simp [lowerExpr, stringsOfT, stringsOfTList, stringsOf,
        stringsOfTList_lower true ps]
  | flag, .program body => by
    simp [lowerExpr, stringsOfT, stringsOf, stringsOfTList_lower false body]

theorem stringsOfTList_lower : ∀ (flag : Bool) (ps : List PNode),
    stringsOfTList (lowerListF flag ps) = stringsOfList ps
  | _, [] => by simp [lowerListF, stringsOfTList, stringsOfList]
  | flag, x :: xs => by
    simp [lowerListF, stringsOfTList, stringsOfList, stringsOfT_lower flag x,
      stringsOfTList_lower flag xs]

end

theorem stringsOfT_transformPure (body : List PNode) :
    stringsOfT (transformPure (.program body)) = stringsOfList body := by
  simp [transformPure, stringsOfT, stringsOfTList_lower false body]

theorem mem_stringsOfTList : ∀ (l : List TNode) (v : String), v ∈ stringsOfTList l →
    ∃ x ∈ l, v ∈ stringsOfT x
  | [], v, h => by simp [stringsOfTList] at h
  | x :: xs, v, h => by
    rw [stringsOfTList] at h
    rcases List.mem_append.mp h with h1 | h1
    · exact ⟨x, by simp, h1⟩
    · obtain ⟨y, hy, hv⟩ := mem_stringsOfTList xs v h1
      exact ⟨y, by simp [hy], hv⟩

theorem subseg_intercalate_go (sep : String) : ∀ (l : List String) (acc x : String),
    (SubSeg x.data acc.data ∨ x ∈ l) →
    SubSeg x.data (String.intercalate.go acc sep l).data
  | [], acc, x, h => by
    rcases h with h | h
    · simpa [String.intercalate.go] using h
    · simp at h
  | a :: as, acc, x, h => by
    rw [show String.intercalate.go acc sep (a :: as) =
      String.intercalate.go (acc ++ sep ++ a) sep as from rfl]
    apply subseg_intercalate_go sep as (acc ++ sep ++ a) x
    rcases h with h | h
    · left
      simpa [String.data_append] using h.append_right (sep.data ++ a.data)
    · rcases List.mem_cons.mp h with rfl | h1
      · left
        exact ⟨acc.data ++ sep.data, [], by simp [String.data_append]⟩
      · right
        exact h1

theorem subseg_intercalate (sep : String) (l : List String) (x : String) (h : x ∈ l) :
    SubSeg x.data (String.intercalate sep l).data := by
  cases l with
  | nil => simp at h
  | cons a as =>
    rw [show String.intercalate sep (a :: as) = String.intercalate.go a sep as from rfl]
    apply subseg_intercalate_go sep as a x
    rcases List.mem_cons.mp h with rfl | h1
    · exact Or.inl (SubSeg.refl _)
    · exact Or.inr h1

theorem codeGenList_eq_map : ∀ l : List TNode, codeGenList l = l.map codeGenerator
  | [] => by simp [codeGenList]
  | x :: xs => by simp [codeGenList, codeGenList_eq_map xs]

mutual

/-- Every literal value and identifier name of a target tree appears
verbatim (as a contiguous character run) in the generated output. -/
theorem gen_subseg : ∀ (t : TNode) (v : String), v ∈ stringsOfT t →
    SubSeg v.data (codeGenerator t).data
  | .ident n, v, h => by
    simp only [stringsOfT, List.mem_singleton] at h
    rw [h, codeGenerator]
    exact SubSeg.refl _
  | .num val, v, h => by
    simp only [stringsOfT, List.mem_singleton] at h
    rw [h, codeGenerator]
    exact SubSeg.refl _
  | .str val, v, h => by
    simp only [stringsOfT, List.mem_singleton] at h
    rw [h, codeGenerator]
    exact ⟨['"'], ['"'], by simp [String.data_append]⟩
  | .exprStmt e, v, h => by
    rw [stringsOfT] at h
    rw [codeGenerator, String.data_append]
    exact (gen_subseg e v h).append_right _
  | .call callee args, v, h => by
    rw [stringsOfT] at h
    rw [codeGenerator]
    rcases List.mem_append.mp h with h1 | h1
    · have := (gen_subseg callee v h1).append_right
        (("(" ++ String.intercalate ", " (codeGenList args) ++ ")").data)
      simpa [String.data_append] using this
    · obtain ⟨x, hx, hv⟩ := mem_stringsOfTList args v h1
      have h2 : codeGenerator x ∈ codeGenList args := by
        rw [codeGenList_eq_map]
        exact List.mem_map_of_mem codeGenerator hx
      have h3 := (gen_subseg x v hv).trans
        (subseg_intercalate ", " (codeGenList args) (codeGenerator x) h2)
      have h4 := (h3.append_left ((codeGenerator callee ++ "(").data)).append_right (")").data
      simpa [String.data_append] using h4
  | .program body, v, h => by
    rw [stringsOfT] at h
    rw [codeGenerator]
    obtain ⟨x, hx, hv⟩ := mem_stringsOfTList body v h
    have h2 : codeGenerator x ∈ codeGenList body := by
      rw [codeGenList_eq_map]
      exact List.mem_map_of_mem codeGenerator hx
    exact (gen_subseg x v hv).trans
      (subseg_intercalate "\n" (codeGenList body) (codeGenerator x) h2)

end

theorem wfList_append : ∀ a b : List PNode, wfList (a ++ b) = (wfList a && wfList b)
  | [], b => by simp [wfList]
  | x :: xs, b => by
    simp [wfList, wfList_append xs b, Bool.and_assoc]

mutual

/-- Every node `walk()` returns is a well-formed expression (never a nested
`Program`). -/
theorem walk_wf : ∀ (fuel : Nat) (tokens : List Token) (cur : Nat) (n : PNode) (cur' : Nat),
    walk fuel tokens cur = some (.ok (some n, cur')) → wfExpr n = true
  | 0, tokens, cur, n, cur' => by
    intro h
    simp [walk] at h
  | fuel+1, tokens, cur, n, cur' => by
    intro h
    rw [walk] at h
    cases hc : tokens[cur]? with
    | none => rw [hc] at h; simp at h
    | some token =>
      rw [hc] at h
      dsimp only at h
      split at h
      · simp only [Option.some.injEq, Except.ok.injEq, Prod.mk.injEq] at h
        rw [← h.1]
        rfl
      · split at h
        · simp only [Option.some.injEq, Except.ok.injEq, Prod.mk.injEq] at h
          rw [← h.1]
          rfl
        · split at h
          · cases hc2 : tokens[cur+1]? with
            | none => rw [hc2] at h; simp at h
            | some nameTok =>
              rw [hc2] at h
              exact walkParams_wf fuel tokens (cur+2) nameTok.value [] n cur' rfl h
          · simp at h
  termination_by fuel => (fuel, 0)

theorem walkParams_wf : ∀ (fuel : Nat) (tokens : List Token) (cur : Nat) (name : String)
    (acc : List PNode) (n : PNode) (cur' : Nat),
    wfList acc = true →
    walkParams fuel tokens cur name acc = some (.ok (some n, cur')) → wfExpr n = true
  | 0, tokens, cur, name, acc, n, cur' => by
    intro _ h
    simp [walkParams] at h
  | fuel+1, tokens, cur, name, acc, n, cur' => by
    intro hacc h
    rw [walkParams] at h
    cases hc : tokens[cur]? with
    | none => rw [hc] at h; simp at h
    | some token =>
      rw [hc] at h
      dsimp only at h
      split at h
      · simp only [Option.some.injEq, Except.ok.injEq, Prod.mk.injEq] at h
        rw [← h.1]
        simpa [wfExpr] using hacc
      · cases hw : walk fuel tokens cur with
        | none => rw [hw] at h; simp at h
        | some r =>
          rw [hw] at h
          match r with
          | .error e => simp at h
          | .ok (some node, c2) =>
            dsimp only at h
            have hnode := walk_wf fuel tokens cur node c2 hw
            exact walkParams_wf fuel tokens c2 name (acc ++ [node]) n cur'
              (by simp [wfList_append, hacc, wfList, hnode]) h
          | .ok (none, c2) =>
            dsimp only at h
            exact walkParams_wf fuel tokens c2 name acc n cur' hacc h
  termination_by fuel => (fuel, 1)

end

theorem parseLoop_wf : ∀ (fuel : Nat) (tokens : List Token) (cur : Nat)
    (acc body : List PNode),
    wfList acc = true →
    parseLoop fuel tokens cur acc = some (.ok body) → wfList body = true
  | 0, tokens, cur, acc, body => by
    intro _ h
    simp [parseLoop] at h
  | fuel+1, tokens, cur, acc, body => by
    intro hacc h
    rw [parseLoop] at h
    split at h
    · cases hw : walk fuel tokens cur with
      | none => rw [hw] at h; simp at h
      | some r =>
        rw [hw] at h
        match r with
        | .error e => simp at h
        | .ok (some node, c2) =>
          dsimp only at h
          exact parseLoop_wf fuel tokens c2 (acc ++ [node]) body
            (by simp [wfList_append, hacc, wfList, walk_wf fuel tokens cur node c2 hw]) h
        | .ok (none, c2) =>
          dsimp only at h
          exact parseLoop_wf fuel tokens c2 acc body hacc h
    · simp only [Option.some.injEq, Except.ok.injEq] at h
      rw [← h]
      exact hacc

/-- Everything `parser` returns is a well-formed Program. -/
theorem parser_wf (fuel : Nat) (tokens : List Token) (ast : PNode)
    (h : parser fuel tokens = some (.ok ast)) : wfProgram ast = true := by
  rw [parser] at h
  cases hp : parseLoop fuel tokens 0 [] with
  | none => rw [hp] at h; simp at h
  | some r =>
    rw [hp] at h
    match r with
    | .error e => simp at h
    | .ok body =>
      simp only [Option.some.injEq, Except.ok.injEq] at h
      rw [← h, wfProgram]
      exact parseLoop_wf fuel tokens 0 [] body rfl hp

theorem stringsOfList_of_mem : ∀ (l : List PNode) (x : PNode) (v : String),
    x ∈ l → v ∈ stringsOf x → v ∈ stringsOfList l
  | [], x, v, hx, _ => by simp at hx
  | x' :: xs, x, v, hx, hv => by
    rw [stringsOfList]
    rcases List.mem_cons.mp hx with rfl | h1
    · exact List.mem_append.mpr (Or.inl hv)
    · exact List.mem_append.mpr (Or.inr (stringsOfList_of_mem xs x v h1 hv))

mutual

/-- Every Number or String token consumed within one `walk()` call ends up,
verbatim, among the literal values and call names of the node `walk`
returns (a `undefined` return consumes nothing). -/
theorem walk_strings : ∀ (fuel : Nat) (tokens : List Token) (cur : Nat)
    (n : Option PNode) (cur' : Nat),
    walk fuel tokens cur = some (.ok (n, cur')) →
    ∀ i t, cur ≤ i → i < cur' → tokens[i]? = some t →
      (t.type = .number ∨ t.type = .string) →
      t.value ∈ (match n with | some node => stringsOf node | none => ([] : List String))
  | 0, tokens, cur, n, cur' => by
    intro h
    simp [walk] at h
  | fuel+1, tokens, cur, n, cur' => by
    intro h
    rw [walk] at h
    cases hc : tokens[cur]? with
    | none => rw [hc] at h; simp at h
    | some token =>
      rw [hc] at h
      dsimp only at h
      split at h
      · simp only [Option.some.injEq, Except.ok.injEq, Prod.mk.injEq] at h
        intro i t hi1 hi2 hit _
        have hieq : i = cur := by omega
        rw [hieq, hc] at hit
        cases hit
        rw [← h.1]
        simp [stringsOf]
      · split at h
        · simp only [Option.some.injEq, Except.ok.injEq, Prod.mk.injEq] at h
          intro i t hi1 hi2 hit _
          have hieq : i = cur := by omega
          rw [hieq, hc] at hit
          cases hit
          rw [← h.1]
          simp [stringsOf]
        · split at h
          next hcond =>
            cases hc2 : tokens[cur+1]? with
            | none => rw [hc2] at h; simp at h
            | some nameTok =>
              rw [hc2] at h
              obtain ⟨ps, hn, _, hcov⟩ :=
                walkParams_strings fuel tokens (cur+2) nameTok.value [] n cur' h
              intro i t hi1 hi2 hit hty
              rw [hn]
              dsimp only
              rcases Nat.lt_or_ge i (cur+2) with hlt | hge
              · rcases Nat.lt_or_ge i (cur+1) with hlt1 | hge1
                · have hieq : i = cur := by omega
                  rw [hieq, hc] at hit
                  cases hit
                  simp only [Bool.and_eq_true, beq_iff_eq] at hcond
                  rcases hty with h1 | h1 <;> rw [hcond.1] at h1 <;> cases h1
                · have hieq : i = cur + 1 := by omega
                  rw [hieq, hc2] at hit
                  cases hit
                  simp [stringsOf]
              · have := hcov i t hge hi2 hit hty
                simpa [stringsOf] using this
          next =>
            simp only [Option.some.injEq, Except.ok.injEq, Prod.mk.injEq] at h
            intro i t hi1 hi2 _ _
            rw [← h.2] at hi2
            omega
  termination_by fuel => (fuel, 0)

/-- Coverage for the params loop: the returned call holds the given name,
extends the accumulated params, and every Number or String token consumed
in the loop's range appears among the call's name and params strings. -/
theorem walkParams_strings : ∀ (fuel : Nat) (tokens : List Token) (cur : Nat)
    (name : String) (acc : List PNode) (n : Option PNode) (cur' : Nat),
    walkParams fuel tokens cur name acc = some (.ok (n, cur')) →
    ∃ ps, n = some (.call name ps) ∧ (∃ suf, ps = acc ++ suf) ∧
      ∀ i t, cur ≤ i → i < cur' → tokens[i]? = some t →
        (t.type = .number ∨ t.type = .string) →
        t.value ∈ name :: stringsOfList ps
  | 0, tokens, cur, name, acc, n, cur' => by
    intro h
    simp [walkParams] at h
  | fuel+1, tokens, cur, name, acc, n, cur' => by
    intro h
    rw [walkParams] at h
    cases hc : tokens[cur]? with
    | none => rw [hc] at h; simp at h
    | some token =>
      rw [hc] at h
      dsimp only at h
      split at h
      next hcond =>
        simp only [Option.some.injEq, Except.ok.injEq, Prod.mk.injEq] at h
        refine ⟨acc, h.1.symm, ⟨[], by simp⟩, ?_⟩
        intro i t hi1 hi2 hit hty
        rw [← h.2] at hi2
        have hieq : i = cur := by omega
        rw [hieq, hc] at hit
        cases hit
        simp only [Bool.and_eq_true, beq_iff_eq] at hcond
        rcases hty with h1 | h1 <;> rw [hcond.1] at h1 <;> cases h1
      next =>
        cases hw : walk fuel tokens cur with
        | none => rw [hw] at h; simp at h
        | some r =>
          rw [hw] at h
          match r with
          | .error e => simp at h
          | .ok (some node, c2) =>
            dsimp only at h
            obtain ⟨ps, hn, ⟨suf, hsuf⟩, hcov⟩ :=
              walkParams_strings fuel tokens c2 name (acc ++ [node]) n cur' h
            refine ⟨ps, hn, ⟨node :: suf, by simp [hsuf]⟩, ?_⟩
            intro i t hi1 hi2 hit hty
            rcases Nat.lt_or_ge i c2 with hlt | hge
            · have hmem := walk_strings fuel tokens cur (some node) c2 hw i t hi1 hlt hit hty
              dsimp only at hmem
              exact List.mem_cons_of_mem _
                (stringsOfList_of_mem ps node t.value (by rw [hsuf]; simp) hmem)
            · exact hcov i t hge hi2 hit hty
          | .ok (none, c2) =>
            dsimp only at h
            obtain ⟨ps, hn, hsuf, hcov⟩ :=
              walkParams_strings fuel tokens c2 name acc n cur' h
            refine ⟨ps, hn, hsuf, ?_⟩
            intro i t hi1 hi2 hit hty
            rcases Nat.lt_or_ge i c2 with hlt | hge
            · have hmem := walk_strings fuel tokens cur none c2 hw i t hi1 hlt hit hty
              simp at hmem
            · exact hcov i t hge hi2 hit hty
  termination_by fuel => (fuel, 1)

end

theorem parseLoop_strings : ∀ (fuel : Nat) (tokens : List Token) (cur : Nat)
    (acc body : List PNode),
    parseLoop fuel tokens cur acc = some (.ok body) →
    (∃ suf, body = acc ++ suf) ∧
    ∀ i t, cur ≤ i → tokens[i]? = some t →
      (t.type = .number ∨ t.type = .string) →
      t.value ∈ stringsOfList body
  | 0, tokens, cur, acc, body => by
    intro h
    simp [parseLoop] at h
  | fuel+1, tokens, cur, acc, body => by
    intro h
    rw [parseLoop] at h
    split at h
    next hlen =>
      cases hw : walk fuel tokens cur with
      | none => rw [hw] at h; simp at h
      | some r =>
        rw [hw] at h
        match r with
        | .error e => simp at h
        | .ok (some node, c2) =>
          dsimp only at h
          obtain ⟨⟨suf, hsuf⟩, hcov⟩ := parseLoop_strings fuel tokens c2 (acc ++ [node]) body h
          refine ⟨⟨node :: suf, by simp [hsuf]⟩, ?_⟩
          intro i t hi1 hit hty
          rcases Nat.lt_or_ge i c2 with hlt | hge
          · have hmem := walk_strings fuel tokens cur (some node) c2 hw i t hi1 hlt hit hty
            dsimp only at hmem
            exact stringsOfList_of_mem body node t.value (by rw [hsuf]; simp) hmem
          · exact hcov i t hge hit hty
        | .ok (none, c2) =>
          dsimp only at h
          obtain ⟨hsuf, hcov⟩ := parseLoop_strings fuel tokens c2 acc body h
          refine ⟨hsuf, ?_⟩
          intro i t hi1 hit hty
          rcases Nat.lt_or_ge i c2 with hlt | hge
          · have hmem := walk_strings fuel tokens cur none c2 hw i t hi1 hlt hit hty
            simp at hmem
          · exact hcov i t hge hit hty
    next hlen =>
      simp only [Option.some.injEq, Except.ok.injEq] at h
      refine ⟨⟨[], by simp [h]⟩, ?_⟩
      intro i t hi1 hit _
      rw [List.getElem?_eq_none (by omega)] at hit
      cases hit

/-- Every Number or String token of the input token list appears, verbatim,
among the literal values and call names of the Program `parser` returns. -/
theorem parser_strings (fuel : Nat) (tokens : List Token) (ast : PNode)
    (h : parser fuel tokens = some (.ok ast)) :
    ∀ t ∈ tokens, (t.type = .number ∨ t.type = .string) → t.value ∈ stringsOf ast := by
  rw [parser] at h
  cases hp : parseLoop fuel tokens 0 [] with
  | none => rw [hp] at h; simp at h
  | some r =>
    rw [hp] at h
    match r with
    | .error e => simp at h
    | .ok body =>
      simp only [Option.some.injEq, Except.ok.injEq] at h
      obtain ⟨_, hcov⟩ := parseLoop_strings fuel tokens 0 [] body hp
      intro t ht hty
      obtain ⟨i, hi, hit⟩ := List.mem_iff_getElem.mp ht
      rw [← h, stringsOf]
      exact hcov i t (Nat.zero_le i) (by rw [List.getElem?_eq_getElem hi, hit]) hty

/-- C1: the composition of the four stages on the input
"(add 2 (subtract 4 2))" — `codeGenerator(transformer(parser(tokenizer(input))))`
— returns exactly the string "add(2, subtract(4, 2));".  Fuel 30 is enough
for every loop to finish on this input, so the fuelled embedding returns the
completed run's value. -/
theorem c1_end_to_end :
    pipeline 30 "(add 2 (subtract 4 2))" = some (.ok "add(2, subtract(4, 2));") := by
  rfl

/-- C2 counterexample: tokenizing "(add 2" succeeds, and parsing the
resulting token stream fails NOT with a ParseError — the code never defines
or throws one — but with the runtime TypeError from reading `.type` of the
missing token `tokens[3]` (`undefinedRead "type"` in the embedding).  So the
claim "fails with a ParseError raised by the parser, rather than crashing in
some other way" is false as stated. -/
theorem c2_counterexample :
    tokenizer 20 "(add 2" = some (.ok [⟨.paren, "("⟩, ⟨.name, "add"⟩, ⟨.number, "2"⟩]) ∧
    parser 20 [⟨.paren, "("⟩, ⟨.name, "add"⟩, ⟨.number, "2"⟩] =
      some (.error (.undefinedRead "type")) := by
  exact ⟨rfl, rfl⟩

/-- C2 (amended): parsing the token stream of the malformed input "(add 2"
fails immediately inside the parser with the runtime TypeError raised by
reading `.type` of the missing token past the end of the stream — not a
ParseError, which this code never constructs — and the whole compilation
aborts with that error rather than returning a truncated Program. -/
theorem c2_amended_fail_fast :
    pipeline 20 "(add 2" = some (.error (.undefinedRead "type")) := by
  rfl

/-- C3: the claim says `tokenize` fails with a LexError on an unterminated
string literal.  In fact the string-mode loop never finds the closing quote
and never terminates (`undefined !== '"'` holds forever, JS accumulates the
text "undefined" indefinitely): on the concrete unterminated input `"abc`
the tokenizer finishes under no fuel bound whatsoever, so no LexError (and
no return) ever happens. -/
theorem c3_unterminated_diverges : ∀ fuel : Nat, tokenizer fuel "\"abc" = none :=
  tokenizer_unterminated_diverges

/-- C4: the claim says every stage terminates on every input.  It is false
on both counts the claim itself names: on "add" (input ending inside a
name) the tokenizer's letter loop runs forever, because
`LETTER.test(undefined)` tests the coerced string "undefined" and stays
true; and on the token stream of ")" (a stray closing paren, which
`tokenize` does produce) the parser's top-level loop repeats the identical
iteration forever, because `walk()` returns `undefined` without advancing
`current`. -/
theorem c4_nontermination :
    (∀ fuel : Nat, tokenizer fuel "add" = none) ∧
    tokenizer 10 ")" = some (.ok [⟨.paren, ")"⟩]) ∧
    (∀ fuel : Nat, parser fuel [⟨.paren, ")"⟩] = none) :=
  ⟨tokenizer_name_diverges, rfl, parser_stray⟩

/-- C5: `tokenizer` never emits a Number token longer than one character:
"42" yields exactly the two Number tokens "4" and "2"; every Number token
in any successful tokenisation has a one-character text; and whenever the
scanner sits at the start of a digit run of length n, it emits exactly n
single-digit Number tokens in input order, advancing past the run. -/
theorem c5_single_digit_tokens :
    tokenizer 10 "42" = some (.ok [⟨.number, "4"⟩, ⟨.number, "2"⟩]) ∧
    (∀ (fuel : Nat) (input : String) (res : List Token),
      tokenizer fuel input = some (.ok res) →
      ∀ t ∈ res, t.type = .number → t.value.length = 1) ∧
    (∀ (ds : List Char) (fuel : Nat) (input : List Char) (current : Nat)
      (tokens : List Token),
      (∀ c ∈ ds, numTest c = true) →
      (∀ i, (h : i < ds.length) → input[current + i]? = some (ds.get ⟨i, h⟩)) →
      tokLoop (ds.length + fuel) input current tokens =
        tokLoop fuel input (current + ds.length)
          (tokens ++ ds.map (fun c => ⟨.number, String.mk [c]⟩))) :=
  ⟨rfl, tokenizer_num_singleton, tokLoop_digit_run⟩

/-- C5 witness: the generic parts of `c5_single_digit_tokens` applied at
concrete inputs — the tokens of "42" all have one-character texts, and the
digit run "97" steps to two single-digit Number tokens. -/
theorem c5_single_digit_tokens_witness :
    (∀ t ∈ [(⟨.number, "4"⟩ : Token), ⟨.number, "2"⟩], t.type = .number →
      t.value.length = 1) ∧
    tokLoop (2 + 5) ['9', '7'] 0 [] =
      tokLoop 5 ['9', '7'] 2 [⟨.number, "9"⟩, ⟨.number, "7"⟩] := by
  constructor
  · exact c5_single_digit_tokens.2.1 10 "42" _ c5_single_digit_tokens.1
  · have h := c5_single_digit_tokens.2.2 ['9', '7'] 5 ['9', '7'] 0 []
      (by decide)
      (by
        intro i h
        match i, h with
        | 0, _ => rfl
        | 1, _ => rfl)
    simpa using h

/-- C6 counterexample: tokenizing "#" and " #" both fail with the very same
SyntaxError value "I dont know what this character is: #", although the
offending character sits at position 0 in the first input and position 1 in
the second — so the error identifies the character but cannot identify its
position, contradicting the claim that it identifies both. -/
theorem c6_counterexample :
    tokenizer 10 "#" =
      some (.error (.syntaxError "I dont know what this character is: #")) ∧
    tokenizer 10 " #" =
      some (.error (.syntaxError "I dont know what this character is: #")) := by
  exact ⟨rfl, rfl⟩

/-- C6 (amended): when the tokenizer meets a character that is not a paren,
whitespace, digit, double quote, or ASCII letter, it fails with its
SyntaxError (the spec's LexError) whose message names the offending
character — but not its position. -/
theorem c6_lexError_names_char (fuel : Nat) (input : List Char) (current : Nat)
    (tokens : List Token) (c : Char)
    (hc : input[current]? = some c)
    (h1 : (c == '(' || c == ')') = false) (h2 : wsTest c = false)
    (h3 : numTest c = false) (h4 : (c == '"') = false) (h5 : letterTest c = false) :
    tokLoop (fuel+1) input current tokens =
      some (.error (.syntaxError ("I dont know what this character is: " ++ String.mk [c]))) :=
  tokLoop_unrecognized fuel input current tokens c hc h1 h2 h3 h4 h5

/-- C6 witness: `c6_lexError_names_char` applied to the single character
input "#" at position 0. -/
theorem c6_lexError_names_char_witness :
    tokLoop 10 ['#'] 0 [] =
      some (.error (.syntaxError ("I dont know what this character is: " ++
        String.mk ['#']))) :=
  c6_lexError_names_char 9 ['#'] 0 [] '#' rfl (by decide) (by decide) (by decide)
    (by decide) (by decide)

/-- C7: for every well-formed source Program (`parser` only produces such
trees), the transformer's result is exactly the pure structural map
`transformPure` of the source tree's public fields (type, name, params,
value, body).  In particular no trace of the `_context` bookkeeping —
modelled as the `ctxOf`/store state threaded beside the trees — reaches the
returned target tree, whose nodes carry only the public target fields; and
the source tree, threaded immutably through the traversal, keeps every
public field unchanged. -/
theorem c7_transform_pure (ast : PNode) (hwf : wfProgram ast = true) :
    transformer ast = Except.ok (transformPure ast) :=
  transformer_eq_pure ast hwf

/-- C7 witness: the refinement applied to the concrete well-formed Program
for "(add 2)". -/
theorem c7_transform_pure_witness :
    wfProgram (.program [.call "add" [.num "2"]]) = true ∧
    transformer (.program [.call "add" [.num "2"]]) =
      Except.ok (transformPure (.program [.call "add" [.num "2"]])) :=
  ⟨rfl, c7_transform_pure (.program [.call "add" [.num "2"]]) rfl⟩

/-- C8: for every AST over the four source node types and every visitor,
`traverseNode` equals running the callbacks over the depth-first event
schedule `dfsEvents`: the node's `enter` (if registered) fires first, then
the children are visited in left-to-right order (`Program.body`,
`CallExpression.params`; literals contribute no child events), then the
node's `exit` (if registered) fires — an exact trace-level statement of
pre-order-enter / post-order-exit depth-first traversal. -/
theorem c8_dfs_traversal : ∀ (σ : Type) (v : Visitor σ) (node : PNode)
    (parent : Option PNode) (s : σ),
    traverseNode v node parent s = applyEvents v (dfsEvents node parent) s :=
  fun _ v node parent s => traverseNode_events node parent v s

/-- C9: literal round-trip identity.  For every input whose tokenisation,
parse and transformation succeed, the text of every Number token and the
content of every String token appears verbatim — as a contiguous,
character-for-character unchanged run — in the generated output.  (String
contents are re-wrapped in quotes and numbers are emitted as-is; nothing is
re-parsed, reformatted or escaped.) -/
theorem c9_literal_roundtrip (fuel : Nat) (input : String) (tokens : List Token)
    (ast : PNode) (out : TNode)
    (_h1 : tokenizer fuel input = some (.ok tokens))
    (h2 : parser fuel tokens = some (.ok ast))
    (h3 : transformer ast = .ok out) :
    ∀ t ∈ tokens, (t.type = .number ∨ t.type = .string) →
      SubSeg t.value.data (codeGenerator out).data := by
  intro t ht hty
  have hwf := parser_wf fuel tokens ast h2
  have hout : out = transformPure ast := by
    have h4 := transformer_eq_pure ast hwf
    rw [h3] at h4
    exact (Except.ok.injEq _ _).mp h4
  have hv := parser_strings fuel tokens ast h2 t ht hty
  cases ast with
  | program body =>
    rw [hout]
    apply gen_subseg
    rw [stringsOfT_transformPure]
    simpa [stringsOf] using hv
  | call name ps => simp [wfProgram] at hwf
  | num v => simp [wfProgram] at hwf
  | str v => simp [wfProgram] at hwf

/-- C9 witness: on the input `(add 2 "hi")`, whose pipeline output is
`add(2, "hi");`, the String token content "hi" appears verbatim in the
generated output. -/
theorem c9_literal_roundtrip_witness :
    SubSeg ("hi" : String).data
      (codeGenerator (.program
        [.exprStmt (.call (.ident "add") [TNode.num "2", TNode.str "hi"])])).data :=
  c9_literal_roundtrip 30 "(add 2 \"hi\")"
    [⟨.paren, "("⟩, ⟨.name, "add"⟩, ⟨.number, "2"⟩, ⟨.string, "hi"⟩, ⟨.paren, ")"⟩]
    (.program [.call "add" [.num "2", .str "hi"]])
    (.program [.exprStmt (.call (.ident "add") [TNode.num "2", TNode.str "hi"])])
    rfl rfl rfl ⟨.string, "hi"⟩ (by simp) (Or.inr rfl)

/-- C10: a bare literal at top level is placed directly into the target
Program's body with no ExpressionStatement wrapper (only CallExpressions
are wrapped), so its generated output carries no trailing semicolon: for
every value `v`, transforming `Program [NumberLiteral v]` gives
`Program [NumberLiteral v]` whose rendering is `v` itself, likewise for
string literals (rendered re-quoted), while a top-level call such as "(f)"
does get wrapped and rendered with the semicolon. -/
theorem c10_bare_literals :
    (∀ v : String, transformer (.program [.num v]) = .ok (.program [TNode.num v]) ∧
      codeGenerator (.program [TNode.num v]) = v) ∧
    (∀ v : String, transformer (.program [.str v]) = .ok (.program [TNode.str v]) ∧
      codeGenerator (.program [TNode.str v]) = "\"" ++ v ++ "\"") ∧
    pipeline 30 "2" = some (.ok "2") ∧
    pipeline 30 "\"hi\"" = some (.ok "\"hi\"") ∧
    pipeline 30 "(f)" = some (.ok "f();") := by
  refine ⟨?_, ?_, rfl, rfl, rfl⟩
  · intro v
    constructor
    · have h := transformer_eq_pure (.program [.num v]) rfl
      simpa [transformPure, lowerListF, lowerExpr] using h
    · simp [codeGenerator, codeGenList, String.intercalate, String.intercalate.go]
  · intro v
    constructor
    · have h := transformer_eq_pure (.program [.str v]) rfl
      simpa [transformPure, lowerListF, lowerExpr] using h
    · simp [codeGenerator, codeGenList, String.intercalate, String.intercalate.go]
